import Mathlib

/-!
# Algorithm-Visualizer: step-trace generation and playback engine

A shallow embedding, in Lean 4, of the core of the Algorithm-Visualizer
repository: the five step-trace generators (`src/algorithms/*.py`), the
playback controller (`src/utils/animation_controller.py`) and the render
synchronisation handlers (`src/ui/visualization_canvas.py`), together with
theorems settling the specification claims about them.

Conventions used throughout:
* Python `int` is `Int`; Python `List[int]` is `List Int`.
* Python tuples `(action, indices, description)` appended to `steps` are the
  structure `Step`.
* In-range list reads `a[i]` are `pyGet` (total, defaulting to `0`; every
  read performed by the generators is provably in range, so the default is
  never observed).  Simultaneous swap assignment
  `a[i], a[j] = a[j], a[i]` is `pySwap`, which evaluates the right-hand side
  first, exactly like Python.
* Fallible operations of the UI layer (tuple unpacking of unexpected arity,
  list indexing that can raise, `ast.literal_eval`) return `Except PyErr`.
-/

/-- Exception classes that the modelled code can raise or catch. -/
inductive PyErr where
  | valueError
  | indexError
  | syntaxError
  | zeroDivisionError
deriving DecidableEq, Repr

/-- Decidable equality for `Except`, so that concrete outcomes of the
fallible operations can be checked by `decide`. -/
instance {ε α : Type} [DecidableEq ε] [DecidableEq α] :
    DecidableEq (Except ε α) := fun
  | .error e, .error f =>
    if h : e = f then .isTrue (by rw [h]) else .isFalse (by simp [h])
  | .ok a, .ok b =>
    if h : a = b then .isTrue (by rw [h]) else .isFalse (by simp [h])
  | .error _, .ok _ => .isFalse (by simp)
  | .ok _, .error _ => .isFalse (by simp)

/-- One animation step `(action, indices, description)` as produced by
`SortingAlgorithm.get_steps` (a Python 3-tuple). -/
structure Step where
  action : String
  indices : List Int
  description : String
deriving DecidableEq, Repr

/-- Python read `a[i]` for the provably in-range non-negative indices used by
the generators (total, with default 0). -/
def pyGet (a : List Int) (i : Int) : Int :=
  a.getD i.toNat 0

/-- Python write `a[i] = v` (no-op when out of range; all generator writes are
in range). -/
def pySet (a : List Int) (i : Int) (v : Int) : List Int :=
  a.set i.toNat v

/-- Python simultaneous assignment `a[i], a[j] = a[j], a[i]`: both right-hand
values are read before either write. -/
def pySwap (a : List Int) (i j : Int) : List Int :=
  let vi := pyGet a j
  let vj := pyGet a i
  (pySet a i vi).set j.toNat vj

/-- Python `range(a, b)` over `int`s, as a list of `Int`. -/
def intRange (a b : Int) : List Int :=
  (List.range (b - a).toNat).map (fun t : Nat => a + (t : Int))

/-- Python `list(range(n))` for a `Nat` length. -/
def natIdxRange (n : Nat) : List Int :=
  (List.range n).map (fun k : Nat => (k : Int))

namespace BubbleSort

/-- Inner loop of `BubbleSort.get_steps`:
`for j in range(0, n - i - 1)` — compares adjacent elements, swapping on
inversion; the running state is `(arr_copy, steps emitted by this pass,
swapped)`. -/
def passFold (arr0 : List Int) (stop : Nat) : List Int × List Step × Bool :=
  (List.range stop).foldl
    (fun st (j : Nat) =>
      let arr := st.1
      let a := pyGet arr j
      let b := pyGet arr ((j : Int) + 1)
      let cmp : Step := ⟨"compare", [(j : Int), (j : Int) + 1], s!"Comparing {a} and {b}"⟩
      if a > b then
        (pySwap arr j ((j : Int) + 1),
         st.2.1 ++ [cmp, ⟨"swap", [(j : Int), (j : Int) + 1], s!"Swapping {a} and {b}"⟩],
         true)
      else
        (arr, st.2.1 ++ [cmp], st.2.2))
    (arr0, [], false)

/-- Outer loop of `BubbleSort.get_steps` (`for i in range(n)` with the
early-exit `break` when a pass performs no swap), returning the final working
copy and the emitted steps from pass `i` on.  `fuel` makes the recursion
structural; called with `fuel = n` it never runs out before the `i < n`
guard stops the loop. -/
def outer (arr : List Int) (n i : Nat) : Nat → List Int × List Step
  | 0 => (arr, [])
  | fuel + 1 =>
    if i < n then
      let p := passFold arr (n - i - 1)
      let arr1 := p.1
      let mark : Step :=
        ⟨"mark_sorted", [((n - i - 1 : Nat) : Int)],
          s!"Element {pyGet arr1 ((n - i - 1 : Nat) : Int)} is now in correct position"⟩
      if p.2.2 then
        let rest := outer arr1 n (i + 1) fuel
        (rest.1, p.2.1 ++ [mark] ++ rest.2)
      else
        (arr1,
         p.2.1 ++ [mark] ++
           (List.range (n - i - 1)).map
             (fun k => ⟨"mark_sorted", [(k : Int)],
               s!"Element {pyGet arr1 (k : Int)} is in correct position"⟩))
    else (arr, [])

/-- `BubbleSort.get_steps`, also returning the final working copy. -/
def run (arr : List Int) : List Int × List Step :=
  outer arr arr.length 0 arr.length

/-- `BubbleSort.get_steps(arr)`. -/
def get_steps (arr : List Int) : List Step :=
  (run arr).2

end BubbleSort

namespace SelectionSort

/-- Inner loop of `SelectionSort.get_steps`:
`for j in range(i + 1, n)` — the working copy does not change during the
scan, so only `(steps, min_idx)` evolve. -/
def innerFold (arr : List Int) (i n : Nat) : List Step × Nat :=
  (List.range' (i + 1) (n - (i + 1))).foldl
    (fun st (j : Nat) =>
      let minIdx := st.2
      let cmp : Step :=
        ⟨"compare", [(minIdx : Int), (j : Int)],
          s!"Comparing {pyGet arr (minIdx : Int)} with {pyGet arr (j : Int)}"⟩
      if pyGet arr (j : Int) < pyGet arr (minIdx : Int) then
        (st.1 ++ [cmp,
          ⟨"highlight_min", [(j : Int)],
            s!"New minimum found: {pyGet arr (j : Int)} at position {j}"⟩], j)
      else
        (st.1 ++ [cmp], minIdx))
    ([], i)

/-- One iteration of the outer loop `for i in range(n)` of
`SelectionSort.get_steps`; state is `(arr_copy, steps)`. -/
def outerStep (n : Nat) (st : List Int × List Step) (i : Nat) : List Int × List Step :=
  let arr := st.1
  let steps := st.2 ++
    [⟨"highlight_current", [(i : Int)], s!"Finding minimum element from position {i}"⟩]
  let inner := innerFold arr i n
  let minIdx := inner.2
  let steps := steps ++ inner.1
  let afterSwap :=
    if minIdx ≠ i then
      (pySwap arr (i : Int) (minIdx : Int),
       steps ++ [⟨"swap", [(i : Int), (minIdx : Int)],
         s!"Swapping {pyGet arr (i : Int)} with minimum {pyGet arr (minIdx : Int)}"⟩])
    else (arr, steps)
  (afterSwap.1,
   afterSwap.2 ++ [⟨"mark_sorted", [(i : Int)],
     s!"Element {pyGet afterSwap.1 (i : Int)} is now in correct position"⟩])

/-- `SelectionSort.get_steps`, also returning the final working copy. -/
def run (arr : List Int) : List Int × List Step :=
  (List.range arr.length).foldl (outerStep arr.length) (arr, [])

/-- `SelectionSort.get_steps(arr)`. -/
def get_steps (arr : List Int) : List Step :=
  (run arr).2

end SelectionSort

namespace InsertionSort

/-- The `while j >= 0 and arr_copy[j] > key` loop of
`InsertionSort.get_steps`; returns the updated working copy, the steps it
emits, and the final value of `j`.  `fuel` makes the recursion structural;
called with `fuel = i` and `j = i - 1` it never runs out before the loop
guard fails. -/
def whileLoop (arr : List Int) (key : Int) (i : Nat) (j : Int) :
    Nat → List Int × List Step × Int
  | 0 => (arr, [], j)
  | fuel + 1 =>
    if 0 ≤ j ∧ pyGet arr j > key then
      let aj := pyGet arr j
      let emitted : List Step :=
        [⟨"compare", [j, (i : Int)], s!"Comparing {aj} with {key}"⟩,
         ⟨"shift", [j, j + 1], s!"Moving {aj} one position right"⟩]
      let arr1 := pySet arr (j + 1) aj
      let rest := whileLoop arr1 key i (j - 1) fuel
      (rest.1, emitted ++ rest.2.1, rest.2.2)
    else
      (arr, [], j)

/-- One iteration of the outer loop `for i in range(1, n)` of
`InsertionSort.get_steps`. -/
def outerStep (st : List Int × List Step) (i : Nat) : List Int × List Step :=
  let arr := st.1
  let key := pyGet arr (i : Int)
  let steps := st.2 ++
    [⟨"highlight_current", [(i : Int)], s!"Inserting element {key} into sorted portion"⟩]
  let w := whileLoop arr key i ((i : Int) - 1) i
  let arr1 := w.1
  let j := w.2.2
  let steps := steps ++ w.2.1
  let afterInsert :=
    if j + 1 ≠ (i : Int) then
      let arr2 := pySet arr1 (j + 1) key
      (arr2,
       steps ++
        [⟨"array_update", natIdxRange arr2.length, s!"Array updated: {arr2}"⟩,
         ⟨"insert", [j + 1], s!"Inserting {key} at position {j + 1}"⟩])
    else (arr1, steps)
  -- `for k in range(i + 1): if k <= i:` — the guard is always true.
  (afterInsert.1,
   afterInsert.2 ++
     (List.range (i + 1)).map
       (fun k => ⟨"mark_sorted", [(k : Int)], s!"Position {k} is now in sorted portion"⟩))

/-- `InsertionSort.get_steps`, also returning the final working copy. -/
def run (arr : List Int) : List Int × List Step :=
  if arr.length = 0 then (arr, [])
  else
    (List.range' 1 (arr.length - 1)).foldl outerStep
      (arr,
       [⟨"mark_sorted", [(0 : Int)],
         s!"Element {pyGet arr 0} at position 0 is initially sorted"⟩])

/-- `InsertionSort.get_steps(arr)`. -/
def get_steps (arr : List Int) : List Step :=
  (run arr).2

end InsertionSort

namespace MergeSort

/-- Python slice `a[lo : hi]` for the non-negative in-range bounds used by
`merge`. -/
def pySlice (a : List Int) (lo hi : Int) : List Int :=
  (a.take hi.toNat).drop lo.toNat

/-- The first merge loop
`while i < len(left_arr) and j < len(right_arr)` of `MergeSort.get_steps`;
returns the updated working copy, the emitted steps, and the final
`(i, j, k)`.  Structural on a fuel that is never exhausted when called with
`fuel = len(left_arr) + len(right_arr)`. -/
def loopBoth (leftArr rightArr : List Int) (arr : List Int) (i j : Nat)
    (k left mid : Int) : Nat → List Int × List Step × Nat × Nat × Int
  | 0 => (arr, [], i, j, k)
  | fuel + 1 =>
    if i < leftArr.length ∧ j < rightArr.length then
      let li := pyGet leftArr (i : Int)
      let rj := pyGet rightArr (j : Int)
      let cmp : Step :=
        ⟨"compare", [left + (i : Int), mid + 1 + (j : Int)], s!"Comparing {li} and {rj}"⟩
      if li ≤ rj then
        let arr1 := pySet arr k li
        let rest := loopBoth leftArr rightArr arr1 (i + 1) j (k + 1) left mid fuel
        (rest.1, cmp :: ⟨"place", [k], s!"Placing {li} at position {k}"⟩ :: rest.2.1,
         rest.2.2)
      else
        let arr1 := pySet arr k rj
        let rest := loopBoth leftArr rightArr arr1 i (j + 1) (k + 1) left mid fuel
        (rest.1, cmp :: ⟨"place", [k], s!"Placing {rj} at position {k}"⟩ :: rest.2.1,
         rest.2.2)
    else (arr, [], i, j, k)

/-- The drain loop `while i < len(left_arr)` of `merge`; structural on a fuel
that is never exhausted when called with `fuel = len(left_arr)`. -/
def drainLeft (leftArr : List Int) (arr : List Int) (i : Nat) (k : Int) :
    Nat → List Int × List Step × Int
  | 0 => (arr, [], k)
  | fuel + 1 =>
    if i < leftArr.length then
      let li := pyGet leftArr (i : Int)
      let arr1 := pySet arr k li
      let rest := drainLeft leftArr arr1 (i + 1) (k + 1) fuel
      (rest.1, ⟨"place", [k], s!"Placing remaining {li} at position {k}"⟩ :: rest.2.1,
       rest.2.2)
    else (arr, [], k)

/-- The drain loop `while j < len(right_arr)` of `merge`; structural on a
fuel that is never exhausted when called with `fuel = len(right_arr)`. -/
def drainRight (rightArr : List Int) (arr : List Int) (j : Nat) (k : Int) :
    Nat → List Int × List Step × Int
  | 0 => (arr, [], k)
  | fuel + 1 =>
    if j < rightArr.length then
      let rj := pyGet rightArr (j : Int)
      let arr1 := pySet arr k rj
      let rest := drainRight rightArr arr1 (j + 1) (k + 1) fuel
      (rest.1, ⟨"place", [k], s!"Placing remaining {rj} at position {k}"⟩ :: rest.2.1,
       rest.2.2)
    else (arr, [], k)

/-- The inner function `merge(left, mid, right)` of `MergeSort.get_steps`. -/
def mergeRun (arr : List Int) (left mid right : Int) : List Int × List Step :=
  let leftArr := pySlice arr left (mid + 1)
  let rightArr := pySlice arr (mid + 1) (right + 1)
  let startStep : Step :=
    ⟨"merge_start", [left, mid, right],
      s!"Merging sorted subarrays [{left}..{mid}] and [{mid + 1}..{right}]"⟩
  let both := loopBoth leftArr rightArr arr 0 0 left left mid
    (leftArr.length + rightArr.length)
  let dl := drainLeft leftArr both.1 both.2.2.1 both.2.2.2.2 leftArr.length
  let dr := drainRight rightArr dl.1 both.2.2.2.1 dl.2.2 rightArr.length
  let arr3 := dr.1
  (arr3,
   startStep :: both.2.1 ++ dl.2.1 ++ dr.2.1 ++
     [⟨"array_update", natIdxRange arr3.length, s!"Array updated: {arr3}"⟩,
      ⟨"mark_sorted", intRange left (right + 1),
        s!"Merged section [{left}..{right}] is now sorted"⟩])

/-- The recursive function `merge_sort_helper(left, right)` of
`MergeSort.get_steps`.  `(left + right) / 2` is Euclidean division, which for
the positive divisor 2 coincides with Python's floor division `//`.
Structural on a fuel bounding the recursion depth; since
`left ≤ mid < right` whenever `left < right`, a call with
`fuel ≥ (right - left) + 1` never exhausts it. -/
def helper (arr : List Int) (left right : Int) : Nat → List Int × List Step
  | 0 => (arr, [])
  | fuel + 1 =>
    if left ≥ right then
      if left = right then
        (arr, [⟨"mark_sorted", [left],
          s!"Single element {pyGet arr left} is already sorted"⟩])
      else (arr, [])
    else
      let mid := (left + right) / 2
      let d : Step :=
        ⟨"divide", [left, mid, right],
          s!"Dividing array from {left} to {right} at position {mid}"⟩
      let h1 := helper arr left mid fuel
      let h2 := helper h1.1 (mid + 1) right fuel
      let m := mergeRun h2.1 left mid right
      (m.1, d :: (h1.2 ++ h2.2 ++ m.2))

/-- `MergeSort.get_steps`, also returning the final working copy. -/
def run (arr : List Int) : List Int × List Step :=
  helper arr 0 ((arr.length : Int) - 1) (arr.length + 1)

/-- `MergeSort.get_steps(arr)`. -/
def get_steps (arr : List Int) : List Step :=
  (run arr).2

end MergeSort

namespace QuickSort

/-- The `for j in range(low, high)` scan of `partition` in
`QuickSort.get_steps`; returns the updated working copy, the emitted steps,
and the final boundary `i`.  Structural on a fuel that is never exhausted
when called with `fuel = (high - j).toNat`. -/
def partitionLoop (arr : List Int) (pivot : Int) (high : Int) (i j : Int) :
    Nat → List Int × List Step × Int
  | 0 => (arr, [], i)
  | fuel + 1 =>
    if j < high then
      let cmp : Step :=
        ⟨"compare", [j, high], s!"Comparing {pyGet arr j} with pivot {pivot}"⟩
      if pyGet arr j ≤ pivot then
        if i + 1 ≠ j then
          let sw : Step :=
            ⟨"swap", [i + 1, j], s!"Swapping {pyGet arr (i + 1)} and {pyGet arr j}"⟩
          let rest := partitionLoop (pySwap arr (i + 1) j) pivot high (i + 1) (j + 1) fuel
          (rest.1, cmp :: sw :: rest.2.1, rest.2.2)
        else
          let rest := partitionLoop arr pivot high (i + 1) (j + 1) fuel
          (rest.1, cmp :: rest.2.1, rest.2.2)
      else
        let rest := partitionLoop arr pivot high i (j + 1) fuel
        (rest.1, cmp :: rest.2.1, rest.2.2)
    else (arr, [], i)

/-- The inner function `partition(low, high)` of `QuickSort.get_steps`;
returns the updated working copy, the emitted steps, and the pivot's final
index `i + 1`. -/
def partitionRun (arr : List Int) (low high : Int) : List Int × List Step × Int :=
  let pivot := pyGet arr high
  let hp : Step := ⟨"highlight_pivot", [high], s!"Choosing {pivot} as pivot"⟩
  let lp := partitionLoop arr pivot high (low - 1) low (high - low).toNat
  if lp.2.2 + 1 ≠ high then
    (pySwap lp.1 (lp.2.2 + 1) high,
     hp :: lp.2.1 ++
       [⟨"swap", [lp.2.2 + 1, high], s!"Placing pivot {pivot} in correct position"⟩],
     lp.2.2 + 1)
  else (lp.1, hp :: lp.2.1, lp.2.2 + 1)

/-- The recursive function `quick_sort_helper(low, high)` of
`QuickSort.get_steps`.  Structural on a fuel bounding the recursion depth;
since the pivot index lies in `[low, high]`, a call with
`fuel ≥ (high - low) + 1` never exhausts it. -/
def helper (arr : List Int) (low high : Int) : Nat → List Int × List Step
  | 0 => (arr, [])
  | fuel + 1 =>
    if low < high then
      let p := partitionRun arr low high
      let r1 := helper p.1 low (p.2.2 - 1) fuel
      let r2 := helper r1.1 (p.2.2 + 1) high fuel
      (r2.1,
       p.2.1 ++
         [⟨"mark_sorted", [p.2.2],
           s!"Pivot {pyGet p.1 p.2.2} is now in correct position"⟩] ++
         r1.2 ++ r2.2)
    else (arr, [])

/-- `QuickSort.get_steps`, also returning the final working copy. -/
def run (arr : List Int) : List Int × List Step :=
  let r := helper arr 0 ((arr.length : Int) - 1) (arr.length + 1)
  (r.1, r.2 ++ [⟨"mark_sorted", natIdxRange r.1.length, "All elements are now sorted"⟩])

/-- `QuickSort.get_steps(arr)`. -/
def get_steps (arr : List Int) : List Step :=
  (run arr).2

end QuickSort

/-- The closed set of algorithms (`src/algorithms/__init__.py`). -/
inductive Alg where
  | bubble
  | selection
  | insertion
  | merge
  | quick
deriving DecidableEq, Repr

/-- `generate`: dispatch to the chosen algorithm's `get_steps`. -/
def generate : Alg → List Int → List Step
  | .bubble => BubbleSort.get_steps
  | .selection => SelectionSort.get_steps
  | .insertion => InsertionSort.get_steps
  | .merge => MergeSort.get_steps
  | .quick => QuickSort.get_steps

/-! ## Playback controller (`src/utils/animation_controller.py`)

The controller's steps are Python tuples of arbitrary arity, so they are
modelled as `List PyVal`; a well-formed step is `[.str action,
.intList indices, .str description]`.  Callbacks are modelled by presence
flags plus an explicit list of the events emitted synchronously by each
operation; tkinter's `after` handle is an abstract `Option Nat` drawn from a
counter. -/

/-- Values that can sit in a step tuple's fields. -/
inductive PyVal where
  | str (v : String)
  | intList (v : List Int)
deriving DecidableEq, Repr

/-- Animation-timing constants from `src/utils/constants.py`. -/
def ANIMATION_SPEED_DEFAULT : ℚ := 1.0

/-- `ANIMATION_SPEED_MIN = 0.5`. -/
def ANIMATION_SPEED_MIN : ℚ := 0.5

/-- `ANIMATION_SPEED_MAX = 3.0`. -/
def ANIMATION_SPEED_MAX : ℚ := 3.0

/-- `FRAME_INTERVAL_MS = 16`. -/
def FRAME_INTERVAL_MS : ℚ := 16

/-- `INTERPOLATION_FRAMES = 8`. -/
def INTERPOLATION_FRAMES : Nat := 8

/-- The `animation_data` dictionary built by `_execute_frame`. -/
structure FrameData where
  action : PyVal
  indices : PyVal
  description : PyVal
  progress : ℚ
  interpolation_frame : Nat
  is_final_frame : Bool
deriving DecidableEq, Repr

/-- An event emitted synchronously to one of the controller's callbacks:
a 3-argument `update_callback` call (from `reset`), a 4-argument
`update_callback` call (from `_execute_frame`), an `on_step_change`
notification, or an `on_completion` call. -/
inductive Emitted where
  | update3 (action : String) (indices : List Int) (description : String)
  | update4 (action indices description : PyVal) (data : FrameData)
  | stepChange (step_number : Nat) (description : PyVal)
  | completion
deriving DecidableEq, Repr

/-- The mutable state of `AnimationController`. -/
structure AnimationController where
  is_playing : Bool
  is_paused : Bool
  current_step : Nat
  animation_steps : List (List PyVal)
  speed : ℚ
  after_id : Option Nat
  interpolation_frame : Nat
  current_animation_data : Option FrameData
  has_update_callback : Bool
  has_step_callback : Bool
  has_completion_callback : Bool
  next_handle : Nat
deriving DecidableEq, Repr

namespace AnimationController

/-- `__init__`: fresh controller (callbacks other than `update_callback`
unset). -/
def mk0 (has_update_callback : Bool) : AnimationController :=
  { is_playing := false
    is_paused := false
    current_step := 0
    animation_steps := []
    speed := ANIMATION_SPEED_DEFAULT
    after_id := none
    interpolation_frame := 0
    current_animation_data := none
    has_update_callback := has_update_callback
    has_step_callback := false
    has_completion_callback := false
    next_handle := 0 }

/-- `set_steps(steps)`. -/
def set_steps (c : AnimationController) (steps : List (List PyVal)) :
    AnimationController :=
  { c with
    animation_steps := steps
    current_step := 0
    interpolation_frame := 0
    current_animation_data := none }

/-- `set_speed(speed)`. -/
def set_speed (c : AnimationController) (speed : ℚ) : AnimationController :=
  { c with speed := max ANIMATION_SPEED_MIN (min ANIMATION_SPEED_MAX speed) }

/-- Python `int(q)`: truncation toward zero. -/
def pyInt (q : ℚ) : Int :=
  if 0 ≤ q then ⌊q⌋ else ⌈q⌉

/-- `get_frame_interval`: `int(FRAME_INTERVAL_MS / self.speed)`; float
division by zero raises `ZeroDivisionError` (unreachable, as `speed` is
clamped positive). -/
def get_frame_interval (c : AnimationController) : Except PyErr Int :=
  if c.speed = 0 then .error .zeroDivisionError
  else .ok (pyInt (FRAME_INTERVAL_MS / c.speed))

/-- `_schedule_next_frame`: books a fresh `after` handle when running.  Only
the handle bookkeeping and the fallible interval computation are modelled;
real-time delay is outside the embedding. -/
def schedule_next_frame (c : AnimationController) :
    Except PyErr AnimationController :=
  if ¬c.is_playing ∨ c.is_paused then .ok c
  else do
    let _ ← c.get_frame_interval
    .ok { c with after_id := some c.next_handle, next_handle := c.next_handle + 1 }

/-- `play()`. -/
def play (c : AnimationController) : Except PyErr AnimationController :=
  if c.animation_steps = [] then .ok c
  else schedule_next_frame { c with is_playing := true, is_paused := false }

/-- `pause()` (cancelling the pending tick when one is booked). -/
def pause (c : AnimationController) : AnimationController :=
  { c with is_paused := true, is_playing := false, after_id := none }

/-- `stop()`: resets playback state, cancels a pending tick, and emits
nothing. -/
def stop (c : AnimationController) : AnimationController × List Emitted :=
  ({ c with
      is_playing := false
      is_paused := false
      current_step := 0
      interpolation_frame := 0
      current_animation_data := none
      after_id := none }, [])

/-- `reset()`: `stop()` followed by the synthetic
`update_callback("reset", [], "Reset to initial state")` call. -/
def reset (c : AnimationController) : AnimationController × List Emitted :=
  let s := stop c
  (s.1,
   s.2 ++ if c.has_update_callback then
     [.update3 "reset" [] "Reset to initial state"] else [])

/-- `cleanup()`. -/
def cleanup (c : AnimationController) : AnimationController :=
  { c with after_id := none, is_playing := false, is_paused := false }

/-- `_complete_animation`. -/
def complete_animation (c : AnimationController) :
    AnimationController × List Emitted :=
  ({ c with is_playing := false, is_paused := false, after_id := none },
   (if c.has_step_callback ∧ c.animation_steps ≠ [] then
      [.stepChange c.animation_steps.length (.str "Animation completed")]
    else []) ++
   (if c.has_completion_callback then [.completion] else []))

/-- `_execute_frame`: one tick.  The destructuring
`action, indices, description = self.animation_steps[self.current_step]`
raises `ValueError` unless the step has exactly three fields. -/
def execute_frame (c : AnimationController) :
    Except PyErr (AnimationController × List Emitted) :=
  if ¬c.is_playing ∨ c.is_paused then .ok (c, [])
  else if c.current_step ≥ c.animation_steps.length then .ok c.complete_animation
  else
    match c.animation_steps.getD c.current_step [] with
    | [action, indices, description] =>
      let e1 : List Emitted :=
        if c.interpolation_frame = 0 ∧ c.has_step_callback then
          [.stepChange (c.current_step + 1) description]
        else []
      let data : FrameData :=
        { action := action
          indices := indices
          description := description
          progress := (c.interpolation_frame : ℚ) / (INTERPOLATION_FRAMES : ℚ)
          interpolation_frame := c.interpolation_frame
          is_final_frame := c.interpolation_frame = INTERPOLATION_FRAMES - 1 }
      let e2 : List Emitted :=
        if c.has_update_callback then [.update4 action indices description data]
        else []
      let c1 :=
        if c.interpolation_frame + 1 ≥ INTERPOLATION_FRAMES then
          { c with current_step := c.current_step + 1, interpolation_frame := 0 }
        else { c with interpolation_frame := c.interpolation_frame + 1 }
      do
        let c2 ← schedule_next_frame c1
        .ok (c2, e1 ++ e2)
    | _ => .error .valueError

end AnimationController

/-! ## Render synchronisation (`src/ui/visualization_canvas.py`)

Only the state the claims are about is modelled: the backing `array` and the
three classification sets.  Canvas drawing (`bar_rects`, `bar_texts` and the
tk draw calls) has no bearing on that state; in the mid-swap animation branch
only the bar-value reads of `_animate_swap_positions` are retained as
possible `IndexError` sources. -/

/-- State owned by `VisualizationCanvas`. -/
structure VisualizationCanvas where
  array : List Int
  comparing_indices : Finset Int
  swapping_indices : Finset Int
  sorted_indices : Finset Int
deriving DecidableEq

/-- Python list indexing `a[i]`: negative indices wrap once; anything still
out of range raises `IndexError`. -/
def pyNormIdx (n : Nat) (i : Int) : Except PyErr Nat :=
  let i1 := if i < 0 then i + n else i
  if 0 ≤ i1 ∧ i1 < (n : Int) then .ok i1.toNat else .error .indexError

namespace VisualizationCanvas

/-- `_handle_compare`. -/
def handle_compare (c : VisualizationCanvas) (indices : List Int)
    (_progress : ℚ) (is_final_frame : Bool) : VisualizationCanvas :=
  if is_final_frame then { c with comparing_indices := indices.toFinset } else c

/-- `_handle_mark_sorted`. -/
def handle_mark_sorted (c : VisualizationCanvas) (indices : List Int) :
    VisualizationCanvas :=
  { c with
    sorted_indices := c.sorted_indices ∪ indices.toFinset
    comparing_indices := indices.foldl Finset.erase c.comparing_indices
    swapping_indices := indices.foldl Finset.erase c.swapping_indices }

/-- `_handle_swap`. -/
def handle_swap (c : VisualizationCanvas) (indices : List Int) (progress : ℚ)
    (is_final_frame : Bool) : Except PyErr VisualizationCanvas :=
  if indices.length ≠ 2 then .ok c
  else
    let idx1 := indices.getD 0 0
    let idx2 := indices.getD 1 0
    if progress = 0 then
      .ok { c with
        swapping_indices := c.swapping_indices ∪ {idx1, idx2}
        comparing_indices := (c.comparing_indices.erase idx1).erase idx2 }
    else if is_final_frame then do
      -- simultaneous assignment: both right-hand reads happen first
      let k1 ← pyNormIdx c.array.length idx1
      let k2 ← pyNormIdx c.array.length idx2
      let v1 := c.array.getD k2 0
      let v2 := c.array.getD k1 0
      .ok { c with
        array := (c.array.set k1 v1).set k2 v2
        swapping_indices := (c.swapping_indices.erase idx1).erase idx2 }
    else do
      -- `_animate_swap_positions`: pure drawing, but reads both bar values
      let _ ← pyNormIdx c.array.length idx1
      let _ ← pyNormIdx c.array.length idx2
      .ok c

end VisualizationCanvas

/-! ### Snapshot decoding for `_handle_array_update`

`_handle_array_update` re-parses the array that `array_update` descriptions
embed as text: `description.split("Array updated: ")[1]` fed to
`ast.literal_eval`, guarded by `"Array updated:" in description`, with
`ValueError`/`IndexError`/`SyntaxError` caught and ignored.  String scanning
and literal evaluation are modelled structurally over the underlying
character lists. -/

/-- Split a character list at the first occurrence of `sep`: `none` when
`sep` does not occur, otherwise the text before and after it. -/
def splitFirst (sep : List Char) : List Char → Option (List Char × List Char)
  | [] => if sep.isEmpty then some ([], []) else none
  | c :: t =>
    if sep.isPrefixOf (c :: t) then some ([], (c :: t).drop sep.length)
    else
      match splitFirst sep t with
      | some (pre, post) => some (c :: pre, post)
      | none => none

/-- Python's `sub in s` substring test. -/
def pyIn (sub s : String) : Bool :=
  (splitFirst sub.data s.data).isSome

/-- `description.split(sep)[1]`: the segment between the first and second
occurrences of `sep` (or everything after the first occurrence when it is the
only one); `IndexError` when `sep` does not occur, since `split` then returns
a single-element list. -/
def pySplitPart1 (sep : List Char) (s : List Char) : Except PyErr (List Char) :=
  match splitFirst sep s with
  | none => .error .indexError
  | some (_, post) =>
    match splitFirst sep post with
    | some (pre2, _) => .ok pre2
    | none => .ok post

/-- The Python literal values `ast.literal_eval` can produce on the strings
reaching `_handle_array_update`: an integer or a list of integers (the only
shapes the generators embed; any other literal text is modelled as a parse
error, which the caller catches and ignores exactly like a genuine non-list
value). -/
inductive PyLit where
  | int (v : Int)
  | intList (v : List Int)
deriving DecidableEq, Repr

/-- Whitespace for `strip`-style trimming. -/
def isPySpace (c : Char) : Bool :=
  c = ' ' ∨ c = '\t' ∨ c = '\n' ∨ c = '\r'

/-- Trim leading and trailing whitespace from a character list. -/
def trimChars (cs : List Char) : List Char :=
  ((cs.dropWhile isPySpace).reverse.dropWhile isPySpace).reverse

/-- Decimal digits to a number; `none` when empty or non-digit. -/
def digitsToNat (cs : List Char) : Option Nat :=
  if cs.isEmpty then none
  else
    cs.foldl
      (fun acc c =>
        acc.bind fun n =>
          if c.isDigit then some (10 * n + (c.toNat - '0'.toNat)) else none)
      (some 0)

/-- An optionally signed integer literal. -/
def parseIntChars (cs : List Char) : Option Int :=
  match cs with
  | '-' :: rest => (digitsToNat rest).map (fun n => -(n : Int))
  | '+' :: rest => (digitsToNat rest).map (fun n => (n : Int))
  | _ => (digitsToNat cs).map (fun n => (n : Int))

/-- Split a character list at every comma. -/
def splitOnComma : List Char → List (List Char)
  | [] => [[]]
  | ',' :: t => [] :: splitOnComma t
  | c :: t =>
    match splitOnComma t with
    | [] => [[c]]
    | h :: r => (c :: h) :: r

/-- The value grammar of `ast.literal_eval` on the snapshot text:
`[n, n, ...]` parses to an integer list, a bare integer to an integer,
everything else to `none`. -/
def pyLiteralEvalOpt (cs0 : List Char) : Option PyLit :=
  let cs := trimChars cs0
  match cs with
  | '[' :: rest =>
    if rest.getLast? = some ']' then
      let inner := trimChars rest.dropLast
      if inner.isEmpty then some (.intList [])
      else
        match (splitOnComma inner).mapM (fun p => parseIntChars (trimChars p)) with
        | some xs => some (.intList xs)
        | none => none
    else none
  | _ => (parseIntChars cs).map .int

/-- Model of `ast.literal_eval` on the character list of the snapshot text:
unparseable text raises (`SyntaxError`; caught by the caller together with
`ValueError` and `IndexError`). -/
def pyLiteralEval (cs : List Char) : Except PyErr PyLit :=
  match pyLiteralEvalOpt cs with
  | some v => .ok v
  | none => .error .syntaxError

/-- The fallible body of the `try:` block of `_handle_array_update`:
`ast.literal_eval(description.split("Array updated: ")[1])`. -/
def snapshotValue (description : String) : Except PyErr PyLit :=
  match pySplitPart1 "Array updated: ".data description.data with
  | .error e => .error e
  | .ok part => pyLiteralEval part

/-- `_handle_array_update`: on the final frame, when the description carries
the snapshot marker, decode it; replace the backing array only by a list of
the same length; catch `ValueError`/`IndexError`/`SyntaxError` and keep the
previous array. -/
def VisualizationCanvas.handle_array_update (c : VisualizationCanvas)
    (_indices : List Int) (_progress : ℚ) (is_final_frame : Bool)
    (description : String) : Except PyErr VisualizationCanvas :=
  if is_final_frame ∧ pyIn "Array updated:" description then
    match snapshotValue description with
    | .ok (.intList new_array) =>
      if new_array.length = c.array.length then .ok { c with array := new_array }
      else .ok c
    | .ok (.int _) => .ok c
    | .error e =>
      if e = .valueError ∨ e = .indexError ∨ e = .syntaxError then .ok c
      else .error e
  else .ok c


/-! ## Example states used by concrete witnesses and counterexamples -/

/-- A well-formed 3-field step tuple. -/
def exStep3 : List PyVal :=
  [.str "compare", .intList [0, 1], .str "Comparing 5 and 3"]

/-- A controller mid-playback, with a tick already scheduled (handle 5) and
all callbacks registered. -/
def exPlaying : AnimationController :=
  { AnimationController.mk0 true with
      is_playing := true
      animation_steps := [exStep3]
      after_id := some 5
      next_handle := 6
      has_step_callback := true
      has_completion_callback := true }

/-- A playing controller whose current step is a 1-field tuple. -/
def exMalformed : AnimationController :=
  { AnimationController.mk0 true with
      is_playing := true
      animation_steps := [[PyVal.str "compare"]] }

/-- A canvas over the backing array `[5, 3, 8]` with clear classification
sets. -/
def exCanvas : VisualizationCanvas :=
  ⟨[5, 3, 8], ∅, ∅, ∅⟩

/-- A canvas over a length-3 backing array, for the `array_update` witness. -/
def exCanvas3 : VisualizationCanvas :=
  ⟨[1, 2, 3], ∅, ∅, ∅⟩

/-- Index discipline of a single step against an array of length `n`: every
index is in `[0, n)`, and an `array_update` step carries the full index
range `0..n-1`. -/
def stepOK (n : Nat) (s : Step) : Prop :=
  (∀ i ∈ s.indices, 0 ≤ i ∧ i < (n : Int)) ∧
  (s.action = "array_update" → s.indices = natIdxRange n)

/-! ## Supporting lemmas -/

/-- `splitFirst` finds `a` wherever it finds `a ++ b`. -/
theorem splitFirst_isSome_mono (a b : List Char) :
    ∀ s : List Char, (splitFirst (a ++ b) s).isSome → (splitFirst a s).isSome := by
  intro s
  induction s with
  | nil =>
    cases a with
    | nil => simp [splitFirst]
    | cons x xs => simp [splitFirst]
  | cons c t ih =>
    rw [splitFirst, splitFirst]
    by_cases hp : (a ++ b).isPrefixOf (c :: t) = true
    · have ha : a.isPrefixOf (c :: t) = true := by
        rw [List.isPrefixOf_iff_prefix] at hp ⊢
        exact (List.prefix_append a b).trans hp
      rw [if_pos hp, if_pos ha]
      simp
    · rw [if_neg hp]
      by_cases ha : a.isPrefixOf (c :: t) = true
      · rw [if_pos ha]; intro _; simp
      · rw [if_neg ha]
        intro h
        have hsome : (splitFirst (a ++ b) t).isSome := by
          rcases hx : splitFirst (a ++ b) t with _ | ⟨pre, post⟩
          · rw [hx] at h; simp at h
          · simp
        have hres := ih hsome
        rcases hs : splitFirst a t with _ | ⟨pre, post⟩
        · simp [hs] at hres
        · simp [hs]

/-- `pyLiteralEval` raises only `SyntaxError`. -/
theorem pyLiteralEval_err (cs : List Char) (e : PyErr)
    (h : pyLiteralEval cs = .error e) : e = .syntaxError := by
  rw [pyLiteralEval] at h
  rcases hv : pyLiteralEvalOpt cs with _ | v <;> rw [hv] at h <;> simp_all

/-- `pySplitPart1` raises only `IndexError`. -/
theorem pySplitPart1_err (sep s : List Char) (e : PyErr)
    (h : pySplitPart1 sep s = .error e) : e = .indexError := by
  rw [pySplitPart1] at h
  repeat' split at h
  all_goals simp_all

/-- A successful `pySplitPart1` means the separator occurs. -/
theorem pySplitPart1_ok_isSome (sep s : List Char) (p : List Char)
    (h : pySplitPart1 sep s = .ok p) : (splitFirst sep s).isSome := by
  rcases hs : splitFirst sep s with _ | pr
  · rw [pySplitPart1, hs] at h
    cases h
  · simp

/-- `snapshotValue` only ever raises `IndexError` or `SyntaxError` (the
classes, alongside `ValueError`, that `_handle_array_update` catches). -/
theorem snapshotValue_err_classes (d : String) (e : PyErr)
    (h : snapshotValue d = .error e) :
    e = .indexError ∨ e = .syntaxError := by
  rw [snapshotValue] at h
  rcases hp : pySplitPart1 "Array updated: ".data d.data with e' | p <;> rw [hp] at h
  · simp only [Except.error.injEq] at h
    subst h
    exact Or.inl (pySplitPart1_err _ _ _ hp)
  · exact Or.inr (pyLiteralEval_err p e h)

/-- A successful snapshot decode implies the guard
`"Array updated:" in description` succeeded. -/
theorem pyIn_of_snapshotValue_ok (d : String) (v : PyLit)
    (h : snapshotValue d = .ok v) :
    pyIn "Array updated:" d = true := by
  rw [snapshotValue] at h
  rcases hp : pySplitPart1 "Array updated: ".data d.data with e' | p
  · rw [hp] at h
    simp at h
  · have hsome := pySplitPart1_ok_isSome _ _ _ hp
    have hd : "Array updated: ".data = "Array updated:".data ++ [' '] := by decide
    rw [hd] at hsome
    rw [pyIn]
    simpa using splitFirst_isSome_mono "Array updated:".data [' '] d.data hsome

/-! ### Index-discipline lemmas (claim C5) -/

theorem pySet_length (a : List Int) (i v : Int) :
    (pySet a i v).length = a.length := by
  simp [pySet]

theorem pySwap_length (a : List Int) (i j : Int) :
    (pySwap a i j).length = a.length := by
  simp [pySwap, pySet]

theorem mem_natIdxRange {n : Nat} {x : Int} :
    x ∈ natIdxRange n ↔ 0 ≤ x ∧ x < (n : Int) := by
  constructor
  · intro h
    rw [natIdxRange] at h
    obtain ⟨k, hk, hkx⟩ := List.mem_map.mp h
    rw [List.mem_range] at hk
    have h2 : (k : Int) = x := hkx
    omega
  · intro h
    rw [natIdxRange]
    refine List.mem_map.mpr ⟨x.toNat, List.mem_range.mpr ?_, ?_⟩
    · omega
    · show ((x.toNat : Nat) : Int) = x
      omega

theorem mem_intRange {a b x : Int} : x ∈ intRange a b ↔ a ≤ x ∧ x < b := by
  constructor
  · intro h
    rw [intRange] at h
    obtain ⟨k, hk, hkx⟩ := List.mem_map.mp h
    rw [List.mem_range] at hk
    have h2 : a + (k : Int) = x := hkx
    omega
  · intro h
    rw [intRange]
    refine List.mem_map.mpr ⟨(x - a).toNat, List.mem_range.mpr ?_, ?_⟩
    · omega
    · show a + (((x - a).toNat : Nat) : Int) = x
      omega

theorem stepOK_of_ne {n : Nat} {s : Step}
    (h1 : ∀ i ∈ s.indices, 0 ≤ i ∧ i < (n : Int))
    (h2 : s.action ≠ "array_update") : stepOK n s :=
  ⟨h1, fun hh => absurd hh h2⟩

theorem stepOK_one {n : Nat} {a d : String} {x : Int} (ha : a ≠ "array_update")
    (hx : 0 ≤ x ∧ x < (n : Int)) : stepOK n ⟨a, [x], d⟩ := by
  refine stepOK_of_ne ?_ ha
  intro i hi
  simp at hi
  omega

theorem stepOK_two {n : Nat} {a d : String} {x y : Int} (ha : a ≠ "array_update")
    (hx : 0 ≤ x ∧ x < (n : Int)) (hy : 0 ≤ y ∧ y < (n : Int)) :
    stepOK n ⟨a, [x, y], d⟩ := by
  refine stepOK_of_ne ?_ ha
  intro i hi
  simp at hi
  rcases hi with rfl | rfl <;> omega

theorem stepOK_three {n : Nat} {a d : String} {x y z : Int}
    (ha : a ≠ "array_update") (hx : 0 ≤ x ∧ x < (n : Int))
    (hy : 0 ≤ y ∧ y < (n : Int)) (hz : 0 ≤ z ∧ z < (n : Int)) :
    stepOK n ⟨a, [x, y, z], d⟩ := by
  refine stepOK_of_ne ?_ ha
  intro i hi
  simp at hi
  rcases hi with rfl | rfl | rfl <;> omega

theorem stepOK_update {n : Nat} {d : String} :
    stepOK n ⟨"array_update", natIdxRange n, d⟩ := by
  refine ⟨?_, fun _ => rfl⟩
  intro i hi
  exact mem_natIdxRange.mp hi

/-- Invariant preservation for a left fold: standard workhorse for the
`for`-loops embedded as `List.foldl`. -/
theorem foldl_induction {α σ : Type} (f : σ → α → σ) (l : List α) (st : σ)
    (P : σ → Prop) (h0 : P st)
    (hstep : ∀ s a, a ∈ l → P s → P (f s a)) : P (l.foldl f st) := by
  induction l generalizing st with
  | nil => exact h0
  | cons a t ih =>
    exact ih (f st a) (hstep st a (by simp) h0)
      (fun s b hb hs => hstep s b (by simp [hb]) hs)

/-- Every step of one bubble pass stays within `[0, stop]`, and the pass
preserves the working copy's length. -/
theorem BubbleSort.passFold_ok (n stop : Nat) (hstop : stop < n)
    (arr : List Int) (ha : arr.length = n) :
    (BubbleSort.passFold arr stop).1.length = n ∧
      ∀ s ∈ (BubbleSort.passFold arr stop).2.1, stepOK n s := by
  rw [BubbleSort.passFold]
  refine foldl_induction _ _ _
    (fun st : List Int × List Step × Bool =>
      st.1.length = n ∧ ∀ s ∈ st.2.1, stepOK n s)
    ⟨ha, by simp⟩ ?_
  intro st j hj hst
  rw [List.mem_range] at hj
  dsimp only
  split
  · refine ⟨by rw [pySwap_length]; exact hst.1, ?_⟩
    intro s hs
    rw [List.mem_append] at hs
    rcases hs with hs | hs
    · exact hst.2 s hs
    · simp only [List.mem_cons, List.mem_singleton] at hs
      rcases hs with rfl | rfl | h
      · exact stepOK_two (by decide) (by omega) (by omega)
      · exact stepOK_two (by decide) (by omega) (by omega)
      · cases h
  · refine ⟨hst.1, ?_⟩
    intro s hs
    rw [List.mem_append] at hs
    rcases hs with hs | hs
    · exact hst.2 s hs
    · simp only [List.mem_singleton] at hs
      subst hs
      exact stepOK_two (by decide) (by omega) (by omega)

/-- All steps of the bubble outer loop are within bounds, and the working
copy's length is preserved. -/
theorem BubbleSort.outer_ok (n : Nat) :
    ∀ (fuel : Nat) (arr : List Int) (i : Nat), arr.length = n →
      (BubbleSort.outer arr n i fuel).1.length = n ∧
        ∀ s ∈ (BubbleSort.outer arr n i fuel).2, stepOK n s := by
  intro fuel
  induction fuel with
  | zero => intro arr i ha; simp [BubbleSort.outer, ha]
  | succ fuel ih =>
    intro arr i ha
    rw [BubbleSort.outer]
    by_cases hin : i < n
    · rw [if_pos hin]
      have hp := BubbleSort.passFold_ok n (n - i - 1) (by omega) arr ha
      dsimp only
      split
      · have hr := ih (BubbleSort.passFold arr (n - i - 1)).1 (i + 1) hp.1
        refine ⟨hr.1, ?_⟩
        intro s hs
        simp only [List.append_assoc, List.mem_append, List.mem_singleton] at hs
        rcases hs with hs | rfl | hs
        · exact hp.2 s hs
        · exact stepOK_one (by decide) (by omega)
        · exact hr.2 s hs
      · refine ⟨hp.1, ?_⟩
        intro s hs
        simp only [List.append_assoc, List.mem_append, List.mem_singleton,
          List.mem_map, List.mem_range] at hs
        rcases hs with hs | rfl | ⟨k, hk, rfl⟩
        · exact hp.2 s hs
        · exact stepOK_one (by decide) (by omega)
        · exact stepOK_one (by decide) (by omega)
    · rw [if_neg hin]
      exact ⟨ha, by simp⟩

/-- All steps of the selection inner scan are within bounds, and the
returned minimum index stays below `n`. -/
theorem SelectionSort.innerFold_ok (n i : Nat) (arr : List Int) (hi : i < n) :
    (∀ s ∈ (SelectionSort.innerFold arr i n).1, stepOK n s) ∧
      (SelectionSort.innerFold arr i n).2 < n := by
  rw [SelectionSort.innerFold]
  refine foldl_induction _ _ _
    (fun st : List Step × Nat => (∀ s ∈ st.1, stepOK n s) ∧ st.2 < n)
    ⟨by simp, hi⟩ ?_
  intro st j hj hst
  rw [List.mem_range'_1] at hj
  have hjn : j < n := by omega
  dsimp only
  split
  · refine ⟨?_, hjn⟩
    intro s hs
    simp only [List.mem_append, List.mem_cons, List.not_mem_nil, or_false] at hs
    rcases hs with hs | rfl | rfl
    · exact hst.1 s hs
    · exact stepOK_two (by decide) (by omega) (by omega)
    · exact stepOK_one (by decide) (by omega)
  · refine ⟨?_, hst.2⟩
    intro s hs
    simp only [List.mem_append, List.mem_cons, List.not_mem_nil, or_false] at hs
    rcases hs with hs | rfl
    · exact hst.1 s hs
    · exact stepOK_two (by decide) (by omega) (by omega)

/-- All steps of the selection sort trace are within bounds, and the working
copy keeps its length. -/
theorem SelectionSort.selection_run_ok (arr : List Int) :
    (SelectionSort.run arr).1.length = arr.length ∧
      ∀ s ∈ (SelectionSort.run arr).2, stepOK arr.length s := by
  rw [SelectionSort.run]
  refine foldl_induction _ _ _
    (fun st : List Int × List Step =>
      st.1.length = arr.length ∧ ∀ s ∈ st.2, stepOK arr.length s)
    ⟨rfl, by simp⟩ ?_
  intro st i hi hst
  rw [List.mem_range] at hi
  have hinner := SelectionSort.innerFold_ok arr.length i st.1 hi
  rw [SelectionSort.outerStep]
  dsimp only
  split
  · refine ⟨by rw [pySwap_length]; exact hst.1, ?_⟩
    intro s hs
    simp only [List.append_assoc, List.mem_append, List.mem_cons,
      List.not_mem_nil, or_false] at hs
    rcases hs with hs | rfl | hs | rfl | rfl
    · exact hst.2 s hs
    · exact stepOK_one (by decide) (by omega)
    · exact hinner.1 s hs
    · exact stepOK_two (by decide) (by omega) (by have := hinner.2; omega)
    · exact stepOK_one (by decide) (by omega)
  · refine ⟨hst.1, ?_⟩
    intro s hs
    simp only [List.append_assoc, List.mem_append, List.mem_cons,
      List.not_mem_nil, or_false] at hs
    rcases hs with hs | rfl | hs | rfl
    · exact hst.2 s hs
    · exact stepOK_one (by decide) (by omega)
    · exact hinner.1 s hs
    · exact stepOK_one (by decide) (by omega)

/-- The insertion-sort shifting loop keeps the working copy's length, emits
only in-bounds steps, and returns `j` within `[-1, i - 1]`. -/
theorem InsertionSort.whileLoop_ok (n : Nat) (key : Int) (i : Nat) (hi : i < n) :
    ∀ (fuel : Nat) (arr : List Int) (j : Int), arr.length = n → -1 ≤ j →
      j ≤ (i : Int) - 1 →
      ((InsertionSort.whileLoop arr key i j fuel).1.length = n ∧
        ∀ s ∈ (InsertionSort.whileLoop arr key i j fuel).2.1, stepOK n s) ∧
      -1 ≤ (InsertionSort.whileLoop arr key i j fuel).2.2 ∧
        (InsertionSort.whileLoop arr key i j fuel).2.2 ≤ (i : Int) - 1 := by
  intro fuel
  induction fuel with
  | zero =>
    intro arr j ha hj1 hj2
    rw [InsertionSort.whileLoop]
    exact ⟨⟨ha, by simp⟩, hj1, hj2⟩
  | succ fuel ih =>
    intro arr j ha hj1 hj2
    rw [InsertionSort.whileLoop]
    split
    · rename_i hg
      have ihh := ih (pySet arr (j + 1) (pyGet arr j)) (j - 1)
        (by rw [pySet_length]; exact ha) (by omega) (by omega)
      dsimp only
      refine ⟨⟨ihh.1.1, ?_⟩, ihh.2.1, ihh.2.2⟩
      intro s hs
      simp only [List.mem_append, List.mem_cons, List.not_mem_nil, or_false] at hs
      rcases hs with (rfl | rfl) | hs
      · exact stepOK_two (by decide) (by omega) (by omega)
      · exact stepOK_two (by decide) (by omega) (by omega)
      · exact ihh.1.2 s hs
    · exact ⟨⟨ha, by simp⟩, hj1, hj2⟩

/-- All steps of the insertion sort trace are within bounds, and the working
copy keeps its length. -/
theorem InsertionSort.insertion_run_ok (arr : List Int) :
    (InsertionSort.run arr).1.length = arr.length ∧
      ∀ s ∈ (InsertionSort.run arr).2, stepOK arr.length s := by
  rw [InsertionSort.run]
  split
  · exact ⟨rfl, by simp⟩
  · rename_i h0
    refine foldl_induction _ _ _
      (fun st : List Int × List Step =>
        st.1.length = arr.length ∧ ∀ s ∈ st.2, stepOK arr.length s)
      ⟨rfl, ?_⟩ ?_
    · intro s hs
      simp only [List.mem_singleton] at hs
      subst hs
      exact stepOK_one (by decide) (by omega)
    · intro st i hi hst
      rw [List.mem_range'_1] at hi
      have hin : i < arr.length := by omega
      have hw := InsertionSort.whileLoop_ok arr.length (pyGet st.1 (i : Int)) i hin
        i st.1 ((i : Int) - 1) hst.1 (by omega) (by omega)
      rw [InsertionSort.outerStep]
      dsimp only
      split
      · constructor
        · rw [pySet_length]
          exact hw.1.1
        · intro s hs
          simp only [List.append_assoc, List.mem_append, List.mem_cons,
            List.not_mem_nil, or_false, List.mem_map, List.mem_range] at hs
          rcases hs with hs | rfl | hs | (rfl | rfl) | ⟨k, hk, rfl⟩
          · exact hst.2 s hs
          · exact stepOK_one (by decide) (by omega)
          · exact hw.1.2 s hs
          · have harr2 : (pySet (InsertionSort.whileLoop st.1
                (pyGet st.1 (i : Int)) i ((i : Int) - 1) i).1
                ((InsertionSort.whileLoop st.1 (pyGet st.1 (i : Int)) i
                  ((i : Int) - 1) i).2.2 + 1) (pyGet st.1 (i : Int))).length =
                arr.length := by
              rw [pySet_length]
              exact hw.1.1
            rw [harr2]
            exact stepOK_update
          · exact stepOK_one (by decide) (by have := hw.2.1; have := hw.2.2; omega)
          · exact stepOK_one (by decide) (by omega)
      · constructor
        · exact hw.1.1
        · intro s hs
          simp only [List.append_assoc, List.mem_append, List.mem_cons,
            List.not_mem_nil, or_false, List.mem_map, List.mem_range] at hs
          rcases hs with hs | rfl | hs | ⟨k, hk, rfl⟩
          · exact hst.2 s hs
          · exact stepOK_one (by decide) (by omega)
          · exact hw.1.2 s hs
          · exact stepOK_one (by decide) (by omega)

/-- Length of the Python slice `a[lo : hi]` for in-range bounds. -/
theorem pySlice_length (a : List Int) (lo hi : Int) (h0 : 0 ≤ lo)
    (hlh : lo ≤ hi) (hhn : hi ≤ (a.length : Int)) :
    ((MergeSort.pySlice a lo hi).length : Int) = hi - lo := by
  have h1 : (MergeSort.pySlice a lo hi).length =
      min hi.toNat a.length - lo.toNat := by
    simp [MergeSort.pySlice]
  rw [h1]
  omega

/-- The two-sided merge loop: length preservation, in-bounds steps, and the
`k = left + i + j` position invariant. -/
theorem MergeSort.loopBoth_ok (n : Nat) (leftArr rightArr : List Int)
    (left mid right : Int)
    (hL : left + (leftArr.length : Int) = mid + 1)
    (hR : mid + 1 + (rightArr.length : Int) = right + 1)
    (h0 : 0 ≤ left) (hrn : right < (n : Int)) :
    ∀ (fuel : Nat) (arr : List Int) (i j : Nat) (k : Int), arr.length = n →
      k = left + i + j → i ≤ leftArr.length → j ≤ rightArr.length →
      ((MergeSort.loopBoth leftArr rightArr arr i j k left mid fuel).1.length = n ∧
        ∀ s ∈ (MergeSort.loopBoth leftArr rightArr arr i j k left mid fuel).2.1,
          stepOK n s) ∧
      (MergeSort.loopBoth leftArr rightArr arr i j k left mid fuel).2.2.2.2 =
          left + (MergeSort.loopBoth leftArr rightArr arr i j k left mid fuel).2.2.1
            + (MergeSort.loopBoth leftArr rightArr arr i j k left mid fuel).2.2.2.1 ∧
      (MergeSort.loopBoth leftArr rightArr arr i j k left mid fuel).2.2.1 ≤
        leftArr.length ∧
      (MergeSort.loopBoth leftArr rightArr arr i j k left mid fuel).2.2.2.1 ≤
        rightArr.length := by
  intro fuel
  induction fuel with
  | zero =>
    intro arr i j k ha hk hi hj
    rw [MergeSort.loopBoth]
    exact ⟨⟨ha, by simp⟩, hk, hi, hj⟩
  | succ fuel ih =>
    intro arr i j k ha hk hi hj
    rw [MergeSort.loopBoth]
    split
    · rename_i hg
      dsimp only
      split
      · have ihh := ih (pySet arr k (pyGet leftArr (i : Int))) (i + 1) j (k + 1)
          (by rw [pySet_length]; exact ha) (by omega) (by omega) hj
        dsimp only
        refine ⟨⟨ihh.1.1, ?_⟩, ihh.2.1, ihh.2.2.1, ihh.2.2.2⟩
        intro s hs
        simp only [List.mem_cons] at hs
        rcases hs with rfl | rfl | hs
        · exact stepOK_two (by decide) (by omega) (by omega)
        · exact stepOK_one (by decide) (by omega)
        · exact ihh.1.2 s hs
      · have ihh := ih (pySet arr k (pyGet rightArr (j : Int))) i (j + 1) (k + 1)
          (by rw [pySet_length]; exact ha) (by omega) hi (by omega)
        dsimp only
        refine ⟨⟨ihh.1.1, ?_⟩, ihh.2.1, ihh.2.2.1, ihh.2.2.2⟩
        intro s hs
        simp only [List.mem_cons] at hs
        rcases hs with rfl | rfl | hs
        · exact stepOK_two (by decide) (by omega) (by omega)
        · exact stepOK_one (by decide) (by omega)
        · exact ihh.1.2 s hs
    · exact ⟨⟨ha, by simp⟩, hk, hi, hj⟩

/-- The left drain loop: length preservation, in-bounds steps, and the
`k + (len - i) = C` position invariant. -/
theorem MergeSort.drainLeft_ok (n : Nat) (leftArr : List Int) (right C : Int)
    (hC : C ≤ right + 1) (hrn : right < (n : Int)) :
    ∀ (fuel : Nat) (arr : List Int) (i : Nat) (k : Int), arr.length = n →
      0 ≤ k → k + ((leftArr.length - i : Nat) : Int) = C →
      ((MergeSort.drainLeft leftArr arr i k fuel).1.length = n ∧
        ∀ s ∈ (MergeSort.drainLeft leftArr arr i k fuel).2.1, stepOK n s) ∧
      k ≤ (MergeSort.drainLeft leftArr arr i k fuel).2.2 ∧
      (MergeSort.drainLeft leftArr arr i k fuel).2.2 ≤ C := by
  intro fuel
  induction fuel with
  | zero =>
    intro arr i k ha hk0 hkC
    rw [MergeSort.drainLeft]
    dsimp only
    exact ⟨⟨ha, by simp⟩, le_refl _, by omega⟩
  | succ fuel ih =>
    intro arr i k ha hk0 hkC
    rw [MergeSort.drainLeft]
    split
    · rename_i hg
      have ihh := ih (pySet arr k (pyGet leftArr (i : Int))) (i + 1) (k + 1)
        (by rw [pySet_length]; exact ha) (by omega) (by omega)
      dsimp only
      refine ⟨⟨ihh.1.1, ?_⟩, by have := ihh.2.1; omega, ihh.2.2⟩
      intro s hs
      simp only [List.mem_cons] at hs
      rcases hs with rfl | hs
      · exact stepOK_one (by decide) (by clear ih ihh; omega)
      · exact ihh.1.2 s hs
    · dsimp only
      exact ⟨⟨ha, by simp⟩, le_refl _, by omega⟩

/-- The right drain loop: same shape as `drainLeft_ok`. -/
theorem MergeSort.drainRight_ok (n : Nat) (rightArr : List Int) (right C : Int)
    (hC : C ≤ right + 1) (hrn : right < (n : Int)) :
    ∀ (fuel : Nat) (arr : List Int) (j : Nat) (k : Int), arr.length = n →
      0 ≤ k → k + ((rightArr.length - j : Nat) : Int) = C →
      ((MergeSort.drainRight rightArr arr j k fuel).1.length = n ∧
        ∀ s ∈ (MergeSort.drainRight rightArr arr j k fuel).2.1, stepOK n s) ∧
      k ≤ (MergeSort.drainRight rightArr arr j k fuel).2.2 ∧
      (MergeSort.drainRight rightArr arr j k fuel).2.2 ≤ C := by
  intro fuel
  induction fuel with
  | zero =>
    intro arr j k ha hk0 hkC
    rw [MergeSort.drainRight]
    dsimp only
    exact ⟨⟨ha, by simp⟩, le_refl _, by omega⟩
  | succ fuel ih =>
    intro arr j k ha hk0 hkC
    rw [MergeSort.drainRight]
    split
    · rename_i hg
      have ihh := ih (pySet arr k (pyGet rightArr (j : Int))) (j + 1) (k + 1)
        (by rw [pySet_length]; exact ha) (by omega) (by omega)
      dsimp only
      refine ⟨⟨ihh.1.1, ?_⟩, by have := ihh.2.1; omega, ihh.2.2⟩
      intro s hs
      simp only [List.mem_cons] at hs
      rcases hs with rfl | hs
      · exact stepOK_one (by decide) (by clear ih ihh; omega)
      · exact ihh.1.2 s hs
    · dsimp only
      exact ⟨⟨ha, by simp⟩, le_refl _, by omega⟩

/-- `merge(left, mid, right)`: length preservation and in-bounds steps. -/
theorem MergeSort.mergeRun_ok (n : Nat) (arr : List Int) (left mid right : Int)
    (h0 : 0 ≤ left) (hlm : left ≤ mid) (hmr : mid < right) (hrn : right < (n : Int))
    (ha : arr.length = n) :
    (MergeSort.mergeRun arr left mid right).1.length = n ∧
      ∀ s ∈ (MergeSort.mergeRun arr left mid right).2, stepOK n s := by
  have hLlen : ((MergeSort.pySlice arr left (mid + 1)).length : Int) =
      mid + 1 - left := pySlice_length arr left (mid + 1) h0 (by omega) (by omega)
  have hRlen : ((MergeSort.pySlice arr (mid + 1) (right + 1)).length : Int) =
      right + 1 - (mid + 1) := pySlice_length arr (mid + 1) (right + 1) (by omega)
      (by omega) (by omega)
  rw [MergeSort.mergeRun]
  dsimp only
  set L := MergeSort.pySlice arr left (mid + 1) with hLdef
  set R := MergeSort.pySlice arr (mid + 1) (right + 1) with hRdef
  set B := MergeSort.loopBoth L R arr 0 0 left left mid (L.length + R.length)
    with hBdef
  have hboth := MergeSort.loopBoth_ok n L R left mid right (by omega) (by omega)
    h0 hrn (L.length + R.length) arr 0 0 left ha (by omega) (by omega) (by omega)
  rw [← hBdef] at hboth
  set DL := MergeSort.drainLeft L B.1 B.2.2.1 B.2.2.2.2 L.length with hDLdef
  have hdl := MergeSort.drainLeft_ok n L right
    (B.2.2.2.2 + ((L.length - B.2.2.1 : Nat) : Int))
    (by have h1 := hboth.2.1
        have h2 := hboth.2.2.1
        have h3 := hboth.2.2.2
        omega)
    hrn L.length B.1 B.2.2.1 B.2.2.2.2 hboth.1.1
    (by have h1 := hboth.2.1; omega) rfl
  rw [← hDLdef] at hdl
  set DR := MergeSort.drainRight R DL.1 B.2.2.2.1 DL.2.2 R.length with hDRdef
  have hdr := MergeSort.drainRight_ok n R right
    (DL.2.2 + ((R.length - B.2.2.2.1 : Nat) : Int))
    (by have h1 := hboth.2.1
        have h2 := hboth.2.2.1
        have h3 := hboth.2.2.2
        have h4 := hdl.2.2
        omega)
    hrn R.length DL.1 B.2.2.2.1 DL.2.2 hdl.1.1
    (by have h1 := hboth.2.1
        have h4 := hdl.2.1
        omega) rfl
  rw [← hDRdef] at hdr
  refine ⟨hdr.1.1, ?_⟩
  intro s hs
  rcases List.mem_cons.mp hs with rfl | hs
  · exact stepOK_three (by decide) (by omega) (by omega) (by omega)
  rcases List.mem_append.mp hs with hs | hs
  · rcases List.mem_append.mp hs with hs | hs
    · rcases List.mem_append.mp hs with hs | hs
      · exact hboth.1.2 s hs
      · exact hdl.1.2 s hs
    · exact hdr.1.2 s hs
  · rcases List.mem_cons.mp hs with rfl | hs
    · rw [hdr.1.1]
      exact stepOK_update
    rcases List.mem_cons.mp hs with rfl | hs
    · refine stepOK_of_ne ?_ (by simp)
      intro x hx
      have := mem_intRange.mp hx
      omega
    · simp at hs

/-- `merge_sort_helper`: length preservation and in-bounds steps. -/
theorem MergeSort.merge_helper_ok (n : Nat) :
    ∀ (fuel : Nat) (arr : List Int) (left right : Int), arr.length = n →
      0 ≤ left → right ≤ (n : Int) - 1 →
      (MergeSort.helper arr left right fuel).1.length = n ∧
        ∀ s ∈ (MergeSort.helper arr left right fuel).2, stepOK n s := by
  intro fuel
  induction fuel with
  | zero =>
    intro arr left right ha h0 hr
    rw [MergeSort.helper]
    exact ⟨ha, by simp⟩
  | succ fuel ih =>
    intro arr left right ha h0 hr
    rw [MergeSort.helper]
    split
    · split
      · refine ⟨ha, ?_⟩
        intro s hs
        rcases List.mem_singleton.mp hs with rfl
        exact stepOK_one (by decide) (by omega)
      · exact ⟨ha, by simp⟩
    · rename_i hlr
      dsimp only
      have h1 := ih arr left ((left + right) / 2) ha h0 (by omega)
      have h2 := ih (MergeSort.helper arr left ((left + right) / 2) fuel).1
        ((left + right) / 2 + 1) right h1.1 (by omega) hr
      have hm := MergeSort.mergeRun_ok n
        (MergeSort.helper
          (MergeSort.helper arr left ((left + right) / 2) fuel).1
          ((left + right) / 2 + 1) right fuel).1
        left ((left + right) / 2) right h0 (by omega) (by omega) (by omega) h2.1
      refine ⟨hm.1, ?_⟩
      intro s hs
      rcases List.mem_cons.mp hs with rfl | hs
      · exact stepOK_three (by decide) (by omega) (by omega) (by omega)
      rcases List.mem_append.mp hs with hs | hs
      · rcases List.mem_append.mp hs with hs | hs
        · exact h1.2 s hs
        · exact h2.2 s hs
      · exact hm.2 s hs

/-- The quick sort partition scan: length preservation and in-bounds
steps. -/
theorem QuickSort.partitionLoop_ok (n : Nat) (pivot high : Int)
    (hn : high < (n : Int)) :
    ∀ (fuel : Nat) (arr : List Int) (i j : Int), arr.length = n → -1 ≤ i →
      i < j →
      (QuickSort.partitionLoop arr pivot high i j fuel).1.length = n ∧
        ∀ s ∈ (QuickSort.partitionLoop arr pivot high i j fuel).2.1,
          stepOK n s := by
  intro fuel
  induction fuel with
  | zero =>
    intro arr i j ha hi hij
    rw [QuickSort.partitionLoop]
    exact ⟨ha, by simp⟩
  | succ fuel ih =>
    intro arr i j ha hi hij
    rw [QuickSort.partitionLoop]
    split
    · rename_i hjh
      dsimp only
      split
      · split
        · have ihh := ih (pySwap arr (i + 1) j) (i + 1) (j + 1)
            (by rw [pySwap_length]; exact ha) (by omega) (by omega)
          refine ⟨ihh.1, ?_⟩
          intro s hs
          rcases List.mem_cons.mp hs with rfl | hs
          · exact stepOK_two (by decide) (by omega) (by omega)
          rcases List.mem_cons.mp hs with rfl | hs
          · exact stepOK_two (by decide) (by omega) (by omega)
          · exact ihh.2 s hs
        · have ihh := ih arr (i + 1) (j + 1) ha (by omega) (by omega)
          refine ⟨ihh.1, ?_⟩
          intro s hs
          rcases List.mem_cons.mp hs with rfl | hs
          · exact stepOK_two (by decide) (by omega) (by omega)
          · exact ihh.2 s hs
      · have ihh := ih arr i (j + 1) ha hi (by omega)
        refine ⟨ihh.1, ?_⟩
        intro s hs
        rcases List.mem_cons.mp hs with rfl | hs
        · exact stepOK_two (by decide) (by omega) (by omega)
        · exact ihh.2 s hs
    · exact ⟨ha, by simp⟩

/-- The boundary returned by the partition scan grows by at most one per
scanned index. -/
theorem QuickSort.partitionLoop_idx_bounds (pivot high : Int) :
    ∀ (fuel : Nat) (arr : List Int) (i j : Int),
      i ≤ (QuickSort.partitionLoop arr pivot high i j fuel).2.2 ∧
        (QuickSort.partitionLoop arr pivot high i j fuel).2.2 ≤
          max i (i + (high - j)) := by
  intro fuel
  induction fuel with
  | zero =>
    intro arr i j
    rw [QuickSort.partitionLoop]
    dsimp only
    omega
  | succ fuel ih =>
    intro arr i j
    rw [QuickSort.partitionLoop]
    split
    · dsimp only
      split
      · split
        · have := ih (pySwap arr (i + 1) j) (i + 1) (j + 1)
          dsimp only
          omega
        · have := ih arr (i + 1) (j + 1)
          dsimp only
          omega
      · have := ih arr i (j + 1)
        dsimp only
        omega
    · dsimp only
      omega

/-- The pivot index returned by `partition(low, high)` lies in
`[low, high]` when `low ≤ high`. -/
theorem QuickSort.partitionRun_idx_bounds (arr : List Int) (low high : Int)
    (h : low ≤ high) :
    low ≤ (QuickSort.partitionRun arr low high).2.2 ∧
      (QuickSort.partitionRun arr low high).2.2 ≤ high := by
  have hb := QuickSort.partitionLoop_idx_bounds (pyGet arr high) high
    ((high - low).toNat) arr (low - 1) low
  rw [QuickSort.partitionRun]
  split <;> dsimp only <;> omega

/-- `partition(low, high)`: length preservation and in-bounds steps. -/
theorem QuickSort.partitionRun_ok (n : Nat) (arr : List Int) (low high : Int)
    (ha : arr.length = n) (h0 : 0 ≤ low) (hlh : low < high)
    (hn : high < (n : Int)) :
    (QuickSort.partitionRun arr low high).1.length = n ∧
      ∀ s ∈ (QuickSort.partitionRun arr low high).2.1, stepOK n s := by
  have hloop := QuickSort.partitionLoop_ok n (pyGet arr high) high hn
    ((high - low).toNat) arr (low - 1) low ha (by omega) (by omega)
  have hbnd := QuickSort.partitionLoop_idx_bounds (pyGet arr high) high
    ((high - low).toNat) arr (low - 1) low
  rw [QuickSort.partitionRun]
  split
  · constructor
    · rw [pySwap_length]
      exact hloop.1
    · intro s hs
      rcases List.mem_cons.mp hs with rfl | hs
      · exact stepOK_one (by decide) (by omega)
      rcases List.mem_append.mp hs with hs | hs
      · exact hloop.2 s hs
      · rcases List.mem_singleton.mp hs with rfl
        exact stepOK_two (by decide) (by clear hloop; omega)
          (by clear hloop; omega)
  · refine ⟨hloop.1, ?_⟩
    intro s hs
    rcases List.mem_cons.mp hs with rfl | hs
    · exact stepOK_one (by decide) (by omega)
    · exact hloop.2 s hs

/-- `quick_sort_helper`: length preservation and in-bounds steps. -/
theorem QuickSort.quick_helper_ok (n : Nat) :
    ∀ (fuel : Nat) (arr : List Int) (low high : Int), arr.length = n →
      0 ≤ low → high ≤ (n : Int) - 1 →
      (QuickSort.helper arr low high fuel).1.length = n ∧
        ∀ s ∈ (QuickSort.helper arr low high fuel).2, stepOK n s := by
  intro fuel
  induction fuel with
  | zero =>
    intro arr low high ha h0 hr
    rw [QuickSort.helper]
    exact ⟨ha, by simp⟩
  | succ fuel ih =>
    intro arr low high ha h0 hr
    rw [QuickSort.helper]
    split
    · rename_i hlh
      dsimp only
      have hpr := QuickSort.partitionRun_ok n arr low high ha h0 hlh (by omega)
      have hpb := QuickSort.partitionRun_idx_bounds arr low high (le_of_lt hlh)
      have h1 := ih (QuickSort.partitionRun arr low high).1 low
        ((QuickSort.partitionRun arr low high).2.2 - 1) hpr.1 h0 (by omega)
      have h2 := ih
        (QuickSort.helper (QuickSort.partitionRun arr low high).1 low
          ((QuickSort.partitionRun arr low high).2.2 - 1) fuel).1
        ((QuickSort.partitionRun arr low high).2.2 + 1) high h1.1 (by omega) hr
      refine ⟨h2.1, ?_⟩
      intro s hs
      rcases List.mem_append.mp hs with hs | hs
      · rcases List.mem_append.mp hs with hs | hs
        · rcases List.mem_append.mp hs with hs | hs
          · exact hpr.2 s hs
          · rcases List.mem_singleton.mp hs with rfl
            exact stepOK_one (by decide) (by clear hpr h1 h2; omega)
        · exact h1.2 s hs
      · exact h2.2 s hs
    · exact ⟨ha, by simp⟩

/-! ## Claims -/

/-- C5: for every algorithm and every input array, every index of every
generated step is within `[0, len(array))`, and `array_update` steps carry
exactly the full index range `0..len(array)-1`. -/
theorem claim_C5 (a : Alg) (arr : List Int) :
    ∀ s ∈ generate a arr,
      (∀ i ∈ s.indices, 0 ≤ i ∧ i < (arr.length : Int)) ∧
      (s.action = "array_update" → s.indices = natIdxRange arr.length) := by
  have h : ∀ s ∈ generate a arr, stepOK arr.length s := by
    cases a with
    | bubble =>
      intro s hs
      simp only [generate, BubbleSort.get_steps, BubbleSort.run] at hs
      exact (BubbleSort.outer_ok arr.length arr.length arr 0 rfl).2 s hs
    | selection =>
      intro s hs
      simp only [generate, SelectionSort.get_steps] at hs
      exact (SelectionSort.selection_run_ok arr).2 s hs
    | insertion =>
      intro s hs
      simp only [generate, InsertionSort.get_steps] at hs
      exact (InsertionSort.insertion_run_ok arr).2 s hs
    | merge =>
      intro s hs
      simp only [generate, MergeSort.get_steps, MergeSort.run] at hs
      exact (MergeSort.merge_helper_ok arr.length (arr.length + 1) arr 0
        ((arr.length : Int) - 1) rfl (by omega) (by omega)).2 s hs
    | quick =>
      intro s hs
      simp only [generate, QuickSort.get_steps, QuickSort.run] at hs
      have hh := QuickSort.quick_helper_ok arr.length (arr.length + 1) arr 0
        ((arr.length : Int) - 1) rfl (by omega) (by omega)
      rcases List.mem_append.mp hs with hs | hs
      · exact hh.2 s hs
      · rcases List.mem_singleton.mp hs with rfl
        rw [hh.1]
        exact stepOK_of_ne (fun x hx => mem_natIdxRange.mp hx) (by simp)
  exact h

/-- C5 (witness): the claim at bubble sort on `[2, 1]` and its first step
`compare [0, 1]`. -/
theorem claim_C5_witness :
    (⟨"compare", [0, 1], "Comparing 2 and 1"⟩ : Step) ∈ generate .bubble [2, 1] ∧
    ∀ i ∈ ([0, 1] : List Int), 0 ≤ i ∧ i < (([2, 1] : List Int).length : Int) :=
  ⟨by decide, (claim_C5 .bubble [2, 1] ⟨"compare", [0, 1], "Comparing 2 and 1"⟩
    (by decide)).1⟩

/-! ### Mark-coverage lemmas (claim C6) -/

/-- A fold whose step only appends to the trace preserves the trace as a
prefix. -/
theorem foldl_appendOnly {α : Type} (f : List Int × List Step → α → List Int × List Step)
    (hf : ∀ st x, st.2 <+: (f st x).2) :
    ∀ (l : List α) (st : List Int × List Step), st.2 <+: (l.foldl f st).2 := by
  intro l
  induction l with
  | nil => intro st; exact List.prefix_rfl
  | cons a t ih => intro st; exact (hf st a).trans (ih (f st a))

/-- A selection-sort outer iteration only appends to the trace. -/
theorem SelectionSort.selection_appendOnly (n : Nat) (st : List Int × List Step)
    (i : Nat) : st.2 <+: (SelectionSort.outerStep n st i).2 := by
  rw [SelectionSort.outerStep]
  dsimp only
  split <;>
    · simp only [List.append_assoc]
      exact List.prefix_append _ _

/-- Every index handed to the selection-sort outer loop receives a
`mark_sorted` step. -/
theorem SelectionSort.selection_marks (n : Nat) :
    ∀ (l : List Nat) (st : List Int × List Step), ∀ i ∈ l,
      ∃ s ∈ (l.foldl (SelectionSort.outerStep n) st).2,
        s.action = "mark_sorted" ∧ s.indices = [(i : Int)] := by
  intro l
  induction l with
  | nil => simp
  | cons a t ih =>
    intro st i hi
    rw [List.foldl_cons]
    rcases List.mem_cons.mp hi with rfl | hi
    · have hmem : ∃ s ∈ (SelectionSort.outerStep n st i).2,
          s.action = "mark_sorted" ∧ s.indices = [(i : Int)] := by
        rw [SelectionSort.outerStep]
        dsimp only
        exact ⟨_, List.mem_append_right _ (List.mem_singleton_self _), rfl, rfl⟩
      obtain ⟨s, hs, hprop⟩ := hmem
      exact ⟨s, (foldl_appendOnly _ (SelectionSort.selection_appendOnly n) t
        (SelectionSort.outerStep n st i)).subset hs, hprop⟩
    · exact ih (SelectionSort.outerStep n st a) i hi

/-- An insertion-sort outer iteration only appends to the trace. -/
theorem InsertionSort.insertion_appendOnly (st : List Int × List Step) (i : Nat) :
    st.2 <+: (InsertionSort.outerStep st i).2 := by
  rw [InsertionSort.outerStep]
  dsimp only
  split <;>
    · simp only [List.append_assoc]
      exact List.prefix_append _ _

/-- Each insertion-sort outer iteration on position `i` marks every
`k ≤ i`. -/
theorem InsertionSort.insertion_marks :
    ∀ (l : List Nat) (st : List Int × List Step), ∀ i ∈ l, ∀ k, k ≤ i →
      ∃ s ∈ (l.foldl InsertionSort.outerStep st).2,
        s.action = "mark_sorted" ∧ s.indices = [(k : Int)] := by
  intro l
  induction l with
  | nil => simp
  | cons a t ih =>
    intro st i hi k hk
    rw [List.foldl_cons]
    rcases List.mem_cons.mp hi with rfl | hi
    · have hmem : ∃ s ∈ (InsertionSort.outerStep st i).2,
          s.action = "mark_sorted" ∧ s.indices = [(k : Int)] := by
        rw [InsertionSort.outerStep]
        dsimp only
        exact ⟨_, List.mem_append_right _
          (List.mem_map.mpr ⟨k, List.mem_range.mpr (by omega), rfl⟩), rfl, rfl⟩
      obtain ⟨s, hs, hprop⟩ := hmem
      exact ⟨s, (foldl_appendOnly _ InsertionSort.insertion_appendOnly t
        (InsertionSort.outerStep st i)).subset hs, hprop⟩
    · exact ih (InsertionSort.outerStep st a) i hi k hk

/-- The bubble outer loop, entered at pass `i < n` with enough fuel, marks
every index below `n - i`. -/
theorem BubbleSort.outer_marks (n : Nat) :
    ∀ (fuel : Nat) (arr : List Int) (i : Nat), i < n → n - i ≤ fuel →
      ∀ k, k < n - i →
        ∃ s ∈ (BubbleSort.outer arr n i fuel).2,
          s.action = "mark_sorted" ∧ s.indices = [(k : Int)] := by
  intro fuel
  induction fuel with
  | zero => intro arr i hin hfuel; omega
  | succ fuel ih =>
    intro arr i hin hfuel k hk
    rw [BubbleSort.outer, if_pos hin]
    dsimp only
    split
    · rename_i hsw
      have hne : n - i - 1 ≠ 0 := by
        intro h0
        rw [h0] at hsw
        simp [BubbleSort.passFold] at hsw
      rcases Nat.lt_or_ge k (n - i - 1) with hklt | hkge
      · obtain ⟨s, hs, hprop⟩ := ih (BubbleSort.passFold arr (n - i - 1)).1
          (i + 1) (by omega) (by omega) k (by omega)
        exact ⟨s, List.mem_append_right _ hs, hprop⟩
      · have hke : k = n - i - 1 := by omega
        subst hke
        exact ⟨_, List.mem_append_left _
          (List.mem_append_right _ (List.mem_singleton_self _)), rfl, rfl⟩
    · rcases Nat.lt_or_ge k (n - i - 1) with hklt | hkge
      · exact ⟨_, List.mem_append_right _
          (List.mem_map.mpr ⟨k, List.mem_range.mpr hklt, rfl⟩), rfl, rfl⟩
      · have hke : k = n - i - 1 := by omega
        subst hke
        exact ⟨_, List.mem_append_left _
          (List.mem_append_right _ (List.mem_singleton_self _)), rfl, rfl⟩

/-- `merge` always ends with a `mark_sorted` step spanning the merged
range. -/
theorem MergeSort.mergeRun_mark_mem (arr : List Int) (l m r : Int) :
    ∃ d, (⟨"mark_sorted", intRange l (r + 1), d⟩ : Step) ∈
      (MergeSort.mergeRun arr l m r).2 := by
  rw [MergeSort.mergeRun]
  dsimp only
  exact ⟨_, List.mem_cons.mpr (Or.inr (List.mem_append_right _
    (List.mem_cons.mpr (Or.inr (List.mem_singleton_self _)))))⟩

/-- C6: for every algorithm and every array of length at least 2, every
index of the array appears in at least one `mark_sorted` step of the trace
(directly, or via a range of indices). -/
theorem claim_C6 (a : Alg) (arr : List Int) (h2 : 2 ≤ arr.length)
    (k : Nat) (hk : k < arr.length) :
    ∃ s ∈ generate a arr, s.action = "mark_sorted" ∧ (k : Int) ∈ s.indices := by
  cases a with
  | bubble =>
    simp only [generate, BubbleSort.get_steps, BubbleSort.run]
    obtain ⟨s, hs, ha, hidx⟩ := BubbleSort.outer_marks arr.length arr.length
      arr 0 (by omega) (by omega) k (by omega)
    exact ⟨s, hs, ha, by rw [hidx]; exact List.mem_singleton_self _⟩
  | selection =>
    simp only [generate, SelectionSort.get_steps, SelectionSort.run]
    obtain ⟨s, hs, ha, hidx⟩ := SelectionSort.selection_marks arr.length
      (List.range arr.length) (arr, []) k (List.mem_range.mpr hk)
    exact ⟨s, hs, ha, by rw [hidx]; exact List.mem_singleton_self _⟩
  | insertion =>
    simp only [generate, InsertionSort.get_steps, InsertionSort.run]
    rw [if_neg (by omega)]
    obtain ⟨s, hs, ha, hidx⟩ := InsertionSort.insertion_marks
      (List.range' 1 (arr.length - 1)) _ (arr.length - 1)
      (List.mem_range'_1.mpr ⟨by omega, by omega⟩) k (by omega)
    exact ⟨s, hs, ha, by rw [hidx]; exact List.mem_singleton_self _⟩
  | merge =>
    simp only [generate, MergeSort.get_steps, MergeSort.run]
    rw [MergeSort.helper, if_neg (by omega)]
    dsimp only
    obtain ⟨d, hd⟩ := MergeSort.mergeRun_mark_mem
      (MergeSort.helper
        (MergeSort.helper arr 0 ((0 + ((arr.length : Int) - 1)) / 2)
          arr.length).1
        ((0 + ((arr.length : Int) - 1)) / 2 + 1) ((arr.length : Int) - 1)
        arr.length).1
      0 ((0 + ((arr.length : Int) - 1)) / 2) ((arr.length : Int) - 1)
    refine ⟨_, List.mem_cons.mpr (Or.inr (List.mem_append_right _ hd)), rfl, ?_⟩
    exact mem_intRange.mpr ⟨by omega, by omega⟩
  | quick =>
    simp only [generate, QuickSort.get_steps, QuickSort.run]
    have hh := QuickSort.quick_helper_ok arr.length (arr.length + 1) arr 0
      ((arr.length : Int) - 1) rfl (by omega) (by omega)
    refine ⟨_, List.mem_append_right _ (List.mem_singleton_self _), rfl, ?_⟩
    rw [hh.1]
    exact mem_natIdxRange.mpr ⟨by omega, by omega⟩

/-- C6 (witness): the claim at bubble sort on `[2, 1]` and index 0. -/
theorem claim_C6_witness :
    2 ≤ ([2, 1] : List Int).length ∧ 0 < ([2, 1] : List Int).length ∧
    ∃ s ∈ generate .bubble [2, 1],
      s.action = "mark_sorted" ∧ ((0 : Nat) : Int) ∈ s.indices :=
  ⟨by decide, by decide, claim_C6 .bubble [2, 1] (by decide) 0 (by decide)⟩

/-- C1 (counterexample): `generate([])` is NOT an empty trace for quick sort:
`QuickSort.get_steps` unconditionally appends a final `mark_sorted` step, so
on `[]` the trace is a single `mark_sorted` with empty indices. -/
theorem claim_C1_counterexample : ¬(generate .quick [] = []) := by decide

/-- C1 (amended): `generate([])` is empty for bubble, selection, insertion
and merge, while quick emits exactly one `mark_sorted` step with empty
indices; `generate([42])` contains exactly one `mark_sorted` step naming
index 0 for every algorithm — for bubble, insertion, merge and quick it is
the whole trace, while selection precedes it with one `highlight_current`
step; generation never raises on empty input (the generators are total). -/
theorem claim_C1_amended :
    generate .bubble [] = [] ∧ generate .selection [] = [] ∧
    generate .insertion [] = [] ∧ generate .merge [] = [] ∧
    generate .quick [] = [⟨"mark_sorted", [], "All elements are now sorted"⟩] ∧
    generate .bubble [42] =
      [⟨"mark_sorted", [0], "Element 42 is now in correct position"⟩] ∧
    generate .insertion [42] =
      [⟨"mark_sorted", [0], "Element 42 at position 0 is initially sorted"⟩] ∧
    generate .merge [42] =
      [⟨"mark_sorted", [0], "Single element 42 is already sorted"⟩] ∧
    generate .quick [42] =
      [⟨"mark_sorted", [0], "All elements are now sorted"⟩] ∧
    generate .selection [42] =
      [⟨"highlight_current", [0], "Finding minimum element from position 0"⟩,
       ⟨"mark_sorted", [0], "Element 42 is now in correct position"⟩] := by
  decide

/-- C7: bubble sort on `[3,1,2]` emits exactly compare(0,1), swap(0,1),
compare(1,2), swap(1,2), mark_sorted(2), compare(0,1) with no following
swap, mark_sorted(1), mark_sorted(0) — the last because the second pass made
zero swaps — and the working copy ends as `[1,2,3]`. -/
theorem claim_C7 :
    generate .bubble [3, 1, 2] =
      [⟨"compare", [0, 1], "Comparing 3 and 1"⟩,
       ⟨"swap", [0, 1], "Swapping 3 and 1"⟩,
       ⟨"compare", [1, 2], "Comparing 3 and 2"⟩,
       ⟨"swap", [1, 2], "Swapping 3 and 2"⟩,
       ⟨"mark_sorted", [2], "Element 3 is now in correct position"⟩,
       ⟨"compare", [0, 1], "Comparing 1 and 2"⟩,
       ⟨"mark_sorted", [1], "Element 2 is now in correct position"⟩,
       ⟨"mark_sorted", [0], "Element 1 is in correct position"⟩] ∧
    (BubbleSort.run [3, 1, 2]).1 = [1, 2, 3] := by
  decide

/-- C2 (counterexample): `set_steps`, called while Playing with a scheduled
tick, leaves the tick booked (`after_id` keeps its handle), and that tick
then fires and delivers events against the new trace rather than having been
cancelled. -/
theorem claim_C2_counterexample :
    (exPlaying.set_steps [exStep3]).after_id = some 5 ∧
    ∃ r, (exPlaying.set_steps [exStep3]).execute_frame = .ok r ∧ r.2 ≠ [] := by
  refine ⟨rfl,
    ⟨({ is_playing := true, is_paused := false, current_step := 0,
        animation_steps := [exStep3], speed := 1.0, after_id := some 6,
        interpolation_frame := 1, current_animation_data := none,
        has_update_callback := true, has_step_callback := true,
        has_completion_callback := true, next_handle := 7 },
      [.stepChange 1 (.str "Comparing 5 and 3"),
       .update4 (.str "compare") (.intList [0, 1]) (.str "Comparing 5 and 3")
         { action := .str "compare", indices := .intList [0, 1],
           description := .str "Comparing 5 and 3", progress := 0,
           interpolation_frame := 0, is_final_frame := false }]),
      ?_, by simp⟩⟩
  norm_num [AnimationController.set_steps, AnimationController.execute_frame,
    AnimationController.schedule_next_frame, AnimationController.get_frame_interval,
    exPlaying, exStep3, AnimationController.mk0, ANIMATION_SPEED_DEFAULT,
    INTERPOLATION_FRAMES]
  rfl

/-- C2 (amended): `set_steps` replaces the trace and resets
`current_step`, `interpolation_frame` and `current_animation_data`, but does
not cancel a scheduled tick and does not change the play/pause state, so a
previously scheduled tick can still fire afterwards. -/
theorem claim_C2_amended (c : AnimationController) (steps : List (List PyVal)) :
    (c.set_steps steps).animation_steps = steps ∧
    (c.set_steps steps).current_step = 0 ∧
    (c.set_steps steps).interpolation_frame = 0 ∧
    (c.set_steps steps).current_animation_data = none ∧
    (c.set_steps steps).after_id = c.after_id ∧
    (c.set_steps steps).is_playing = c.is_playing ∧
    (c.set_steps steps).is_paused = c.is_paused :=
  ⟨rfl, rfl, rfl, rfl, rfl, rfl, rfl⟩

/-- C3 (counterexample): `stop()` does not emit a synthetic reset event — it
emits nothing at all, so "exactly one reset event" fails for `stop`. -/
theorem claim_C3_counterexample : (exPlaying.stop).2.length ≠ 1 := by decide

/-- C3 (amended): both `stop()` and `reset()` set mode Stopped,
`current_step = 0`, `interpolation_frame = 0` and cancel any pending tick;
`stop()` emits nothing, and only `reset()` (when an update callback is set)
synchronously emits exactly one `reset` event with empty indices. -/
theorem claim_C3_amended (c : AnimationController) :
    ((c.stop).1.is_playing = false ∧ (c.stop).1.is_paused = false ∧
     (c.stop).1.current_step = 0 ∧ (c.stop).1.interpolation_frame = 0 ∧
     (c.stop).1.after_id = none ∧ (c.stop).2 = []) ∧
    (c.reset).1 = (c.stop).1 ∧
    (c.has_update_callback = true →
      (c.reset).2 = [.update3 "reset" [] "Reset to initial state"]) := by
  refine ⟨⟨rfl, rfl, rfl, rfl, rfl, rfl⟩, rfl, ?_⟩
  intro h
  simp [AnimationController.reset, AnimationController.stop, h]

/-- C3 (witness): the amended claim applied to the concrete playing
controller `exPlaying`, whose update callback is set. -/
theorem claim_C3_amended_witness :
    exPlaying.has_update_callback = true ∧
    (exPlaying.reset).2 = [.update3 "reset" [] "Reset to initial state"] :=
  ⟨rfl, (claim_C3_amended exPlaying).2.2 rfl⟩

/-- C4 (counterexample): a tick on a step of arity 1 raises `ValueError` at
the tuple destructuring instead of completing. -/
theorem claim_C4_counterexample :
    exMalformed.execute_frame = .error .valueError := by decide

/-- C4 (amended): a tick completes without raising whenever every step of
the trace is a 3-field tuple (whatever the field contents) and the speed is
non-zero (always true of reachable states); a step of any other arity makes
the destructuring raise `ValueError`. -/
theorem claim_C4_amended (c : AnimationController)
    (h3 : ∀ s ∈ c.animation_steps, s.length = 3) (hs : c.speed ≠ 0) :
    ∃ r, c.execute_frame = .ok r := by
  rw [AnimationController.execute_frame]
  split
  · exact ⟨_, rfl⟩
  · split
    · exact ⟨_, rfl⟩
    · rename_i hguard hlen
      have hmem : c.animation_steps.getD c.current_step [] ∈ c.animation_steps := by
        rw [List.getD_eq_getElem?_getD]
        rw [List.getElem?_eq_getElem (by omega)]
        exact List.getElem_mem _
      have hl3 := h3 _ hmem
      rcases List.length_eq_three.mp hl3 with ⟨a, b, c3, heq⟩
      rw [heq]
      have hsch : ∀ c1 : AnimationController, c1.speed = c.speed →
          ∃ c2, c1.schedule_next_frame = .ok c2 := by
        intro c1 hc1
        rw [AnimationController.schedule_next_frame]
        split
        · exact ⟨_, rfl⟩
        · rw [AnimationController.get_frame_interval, hc1, if_neg hs]
          exact ⟨_, rfl⟩
      dsimp only
      rcases hsch
          (if c.interpolation_frame + 1 ≥ INTERPOLATION_FRAMES then
            { c with current_step := c.current_step + 1, interpolation_frame := 0 }
          else { c with interpolation_frame := c.interpolation_frame + 1 })
          (by split <;> rfl) with ⟨c2, hc2⟩
      rw [hc2]
      exact ⟨_, rfl⟩

/-- C4 (witness): the amended claim at the concrete controller `exPlaying`,
whose only step has exactly three fields. -/
theorem claim_C4_amended_witness :
    (∀ s ∈ exPlaying.animation_steps, s.length = 3) ∧ exPlaying.speed ≠ 0 ∧
    ∃ r, exPlaying.execute_frame = .ok r :=
  ⟨by decide, by norm_num [exPlaying, AnimationController.mk0, ANIMATION_SPEED_DEFAULT],
   claim_C4_amended exPlaying (by decide)
     (by norm_num [exPlaying, AnimationController.mk0, ANIMATION_SPEED_DEFAULT])⟩

/-- C8: starting from any speed in `[0.5, 3.0]` (the initial speed is 1.0),
any sequence of `set_speed` calls with arbitrary arguments leaves the speed
in `[SPEED_MIN, SPEED_MAX] = [0.5, 3.0]`; in particular `set_speed 10.0`
yields 3.0 and `set_speed (-1.0)` yields 0.5. -/
theorem claim_C8 (c : AnimationController) (ss : List ℚ)
    (h : ANIMATION_SPEED_MIN ≤ c.speed ∧ c.speed ≤ ANIMATION_SPEED_MAX) :
    (ANIMATION_SPEED_MIN ≤ (ss.foldl AnimationController.set_speed c).speed ∧
      (ss.foldl AnimationController.set_speed c).speed ≤ ANIMATION_SPEED_MAX) ∧
    ∀ c' : AnimationController,
      (c'.set_speed 10).speed = 3 ∧ (c'.set_speed (-1)).speed = 0.5 := by
  constructor
  · induction ss generalizing c with
    | nil => exact h
    | cons s t ih =>
      apply ih
      rw [AnimationController.set_speed]
      constructor
      · exact le_max_left _ _
      · apply max_le
        · norm_num [ANIMATION_SPEED_MIN, ANIMATION_SPEED_MAX]
        · exact min_le_left _ _
  · intro c'
    constructor <;>
      · rw [AnimationController.set_speed]
        rw [ANIMATION_SPEED_MIN, ANIMATION_SPEED_MAX]
        rw [max_def, min_def]
        norm_num

/-- C8 (witness): the claim at the fresh controller (speed 1.0) and the call
sequence `[10, -1]`. -/
theorem claim_C8_witness :
    (ANIMATION_SPEED_MIN ≤ (AnimationController.mk0 true).speed ∧
      (AnimationController.mk0 true).speed ≤ ANIMATION_SPEED_MAX) ∧
    (ANIMATION_SPEED_MIN ≤
        (([10, -1] : List ℚ).foldl AnimationController.set_speed
          (AnimationController.mk0 true)).speed ∧
      (([10, -1] : List ℚ).foldl AnimationController.set_speed
          (AnimationController.mk0 true)).speed ≤ ANIMATION_SPEED_MAX) :=
  ⟨by norm_num [AnimationController.mk0, ANIMATION_SPEED_DEFAULT,
      ANIMATION_SPEED_MIN, ANIMATION_SPEED_MAX],
   (claim_C8 (AnimationController.mk0 true) [10, -1]
     (by norm_num [AnimationController.mk0, ANIMATION_SPEED_DEFAULT,
        ANIMATION_SPEED_MIN, ANIMATION_SPEED_MAX])).1⟩

/-- C10: the renderer's swap handler ignores any event whose indices list
does not have exactly two entries: it returns the state unchanged (backing
array and all three classification sets untouched) for every progress value
and final-frame flag, and raises nothing. -/
theorem claim_C10 (c : VisualizationCanvas) (indices : List Int)
    (progress : ℚ) (is_final_frame : Bool) (h : indices.length ≠ 2) :
    c.handle_swap indices progress is_final_frame = .ok c := by
  rw [VisualizationCanvas.handle_swap, if_pos h]

/-- C10 (witness): the claim at the concrete canvas `exCanvas` and the
3-entry indices list `[0, 1, 2]`. -/
theorem claim_C10_witness :
    (([0, 1, 2] : List Int).length ≠ 2) ∧
    exCanvas.handle_swap [0, 1, 2] 1 true = .ok exCanvas :=
  ⟨by decide, claim_C10 exCanvas [0, 1, 2] 1 true (by decide)⟩

/-- C9: on a final-frame `array_update` event the renderer never lets an
exception propagate; when the embedded snapshot decodes to a list of the
same length as the backing array the array is replaced by it, and in every
other case (decode failure, non-list value, length mismatch) the backing
array is left unchanged. -/
theorem claim_C9 (c : VisualizationCanvas) (idxs : List Int) (p : ℚ)
    (desc : String) :
    (∃ c', c.handle_array_update idxs p true desc = .ok c') ∧
    (∀ xs, snapshotValue desc = .ok (.intList xs) → xs.length = c.array.length →
      c.handle_array_update idxs p true desc = .ok { c with array := xs }) ∧
    (∀ xs, snapshotValue desc = .ok (.intList xs) → xs.length ≠ c.array.length →
      c.handle_array_update idxs p true desc = .ok c) ∧
    ((∀ xs, snapshotValue desc ≠ .ok (.intList xs)) →
      c.handle_array_update idxs p true desc = .ok c) := by
  refine ⟨?_, ?_, ?_, ?_⟩
  · rw [VisualizationCanvas.handle_array_update]
    split
    · rcases hv : snapshotValue desc with e | v
      · rcases snapshotValue_err_classes desc e hv with h | h <;> simp [hv, h]
      · rcases v with v | xs
        · simp [hv]
        · rcases eq_or_ne xs.length c.array.length with hl | hl <;> simp [hv, hl]
    · exact ⟨_, rfl⟩
  · intro xs hv hl
    rw [VisualizationCanvas.handle_array_update,
      if_pos ⟨rfl, pyIn_of_snapshotValue_ok desc _ hv⟩, hv]
    simp [hl]
  · intro xs hv hl
    rw [VisualizationCanvas.handle_array_update,
      if_pos ⟨rfl, pyIn_of_snapshotValue_ok desc _ hv⟩, hv]
    simp [hl]
  · intro hne
    rw [VisualizationCanvas.handle_array_update]
    split
    · rcases hv : snapshotValue desc with e | v
      · rcases snapshotValue_err_classes desc e hv with h | h <;> simp [h]
      · rcases v with v | xs
        · rfl
        · exact absurd hv (hne xs)
    · rfl

/-- C9 (witness): the claim's replacement case at the concrete canvas
`exCanvas3` (backing array `[1,2,3]`) and the real generator description
`"Array updated: [9, 8, 7]"`. -/
theorem claim_C9_witness :
    snapshotValue "Array updated: [9, 8, 7]" = .ok (.intList [9, 8, 7]) ∧
    ([9, 8, 7] : List Int).length = exCanvas3.array.length ∧
    exCanvas3.handle_array_update [] 1 true "Array updated: [9, 8, 7]" =
      .ok { exCanvas3 with array := [9, 8, 7] } :=
  ⟨by decide, by decide,
   (claim_C9 exCanvas3 [] 1 "Array updated: [9, 8, 7]").2.1 [9, 8, 7]
     (by decide) (by decide)⟩
